import Mathlib

/-
Verification of the ProofViz core: the layer-based layout algorithm
(getLayoutedElements in GraphDisplay.js), the incremental view-state
synchronizer (the reconcile step of the layout effect), the validation
merge (handleValidate in App.js), the highlight rules, and the MathNode
presentation logic, shallowly embedded in Lean.

Conventions of the embedding:
* JavaScript Map objects are association lists with mget / mset; mset
  replaces the value of an existing key in place, else appends, the same
  observable behaviour as Map.prototype.set.
* JavaScript numbers are Int.  The only non-finite value the layout code
  can produce in an output is NaN in a node's x coordinate (adding an
  offset computed from an undefined layer), so the x coordinate is an
  Option Int, with none standing for NaN.  Every division the code
  performs is exact (the dividend is a nonnegative even multiple of
  nodeWidth + horizontalSpacing), so integer division agrees with
  JavaScript float division on every reachable value.
* The while loop over the BFS queue runs with explicit fuel
  nodes.length + edges.length; a theorem below (bfsRun_runs_out) proves
  this fuel always drains the queue, so the embedding never cuts the
  loop short.
* The embedding follows the latest revision of GraphDisplay.js (the one
  with constants 500/100/100/100 and the adjacency guard on edge
  sources).  The older revision in proofviz-frontend/src differs only in
  the constant values and in unconditionally creating adjacency entries
  for edge sources that are not nodes; neither difference affects any
  claim settled here, as noted per claim.
-/

/-- JavaScript values stored in a node's data bag: strings and booleans. -/
inductive JVal where
  | str : String → JVal
  | bool : Bool → JVal
  deriving DecidableEq, Repr

/-- JavaScript truthiness for the values of JVal: a string is truthy iff
nonempty, a boolean is truthy iff true. -/
def truthy : JVal → Bool
  | .str s => !(s == "")
  | .bool b => b

/-- Lookup in an association list; models Map.prototype.get (and property
lookup on a plain object used as a bag). -/
def mget {K V : Type} [DecidableEq K] : List (K × V) → K → Option V
  | [], _ => none
  | (k, v) :: rest, key => if k = key then some v else mget rest key

/-- Update / insert in an association list; models Map.prototype.set and
property assignment: an existing key keeps its position and gets the new
value, a new key is appended at the end. -/
def mset {K V : Type} [DecidableEq K] : List (K × V) → K → V → List (K × V)
  | [], key, v => [(key, v)]
  | (k, w) :: rest, key, v =>
    if k = key then (key, v) :: rest else (k, w) :: mset rest key v

/-- A React Flow edge as the layout code sees it: only the endpoint ids
matter to the core (the generated edge id and the animated flag are
constants never read by it). -/
structure REdge where
  source : String
  target : String
  deriving DecidableEq, Repr

/-- A React Flow node as the layout code sees it: its id, its data bag,
and its position.  px is the x coordinate (none models NaN), py the y
coordinate. -/
structure RNode where
  id : String
  data : List (String × JVal)
  px : Option Int
  py : Int
  deriving DecidableEq, Repr

/-- Layout constant nodeWidth from GraphDisplay.js. -/
def nodeWidth : Int := 500

/-- Layout constant nodeHeight from GraphDisplay.js. -/
def nodeHeight : Int := 100

/-- Layout constant horizontalSpacing from GraphDisplay.js. -/
def horizontalSpacing : Int := 100

/-- Layout constant verticalSpacing from GraphDisplay.js. -/
def verticalSpacing : Int := 100

/-- Step 1 of getLayoutedElements, adjacency part: every node id gets an
empty child list, then each edge whose source has an entry appends its
target to that source's list. -/
def buildAdj (nodes : List RNode) (edges : List REdge) : List (String × List String) :=
  edges.foldl (fun m e =>
      match mget m e.source with
      | some children => mset m e.source (children ++ [e.target])
      | none => m)
    (nodes.foldl (fun m n => mset m n.id []) [])

/-- Step 1 of getLayoutedElements, in-degree part: every node id starts
at 0, then each edge increments its target's count (creating the entry
if the target is not a node). -/
def buildInDeg (nodes : List RNode) (edges : List REdge) : List (String × Int) :=
  edges.foldl (fun m e => mset m e.target ((mget m e.target).getD 0 + 1))
    (nodes.foldl (fun m n => mset m n.id 0) [])

/-- The in-place position write inside the BFS loop: nodes.find picks the
first node object whose id matches, and its position is overwritten. -/
def setFirstPos : List RNode → String → Int → Int → List RNode
  | [], _, _, _ => []
  | n :: rest, nodeId, x, y =>
    if n.id = nodeId then { n with px := some x, py := y } :: rest
    else n :: setFirstPos rest nodeId x y

/-- The mutable state of the BFS layering loop of getLayoutedElements. -/
structure BfsState where
  layers : List (String × Int)
  counts : List (Int × Int)
  indeg : List (String × Int)
  nodes : List RNode
  queue : List String
  deriving Repr

/-- The forEach over the children of the dequeued node: decrement each
child's in-degree ((inDegree.get(childId) || 0) - 1); when it reaches
exactly 0 record the child's layer as layer + 1 and push it on the
queue. -/
def procChildren (layer : Int) : List String → BfsState → BfsState
  | [], st => st
  | childId :: rest, st =>
    let newInDegree := (mget st.indeg childId).getD 0 - 1
    let st1 : BfsState := { st with indeg := mset st.indeg childId newInDegree }
    let st2 : BfsState :=
      if newInDegree = 0 then
        { st1 with layers := mset st1.layers childId (layer + 1),
                   queue := st1.queue ++ [childId] }
      else st1
    procChildren layer rest st2

/-- One iteration of the while loop: pop nodeId, read its layer (always
present: every enqueued id has had its layer set first), bump the count
of that layer, write the node's position through nodes.find, then
process its children.  (The maxLayer variable of the source is dead: it
is updated but never read, so it is omitted.) -/
def bfsStep (adj : List (String × List String)) (st : BfsState) (nodeId : String)
    (rest : List String) : BfsState :=
  let layer := (mget st.layers nodeId).getD 0
  let indexInLayer := (mget st.counts layer).getD 0
  procChildren layer ((mget adj nodeId).getD [])
    { layers := st.layers,
      counts := mset st.counts layer (indexInLayer + 1),
      indeg := st.indeg,
      nodes := setFirstPos st.nodes nodeId
        (indexInLayer * (nodeWidth + horizontalSpacing))
        (layer * (nodeHeight + verticalSpacing)),
      queue := rest }

/-- The while loop, with explicit fuel; bfsRun_runs_out below shows the
fuel used by the layout function always empties the queue, so the fuel
never cuts the loop short. -/
def bfsRun (adj : List (String × List String)) : Nat → BfsState → BfsState
  | 0, st => st
  | fuel + 1, st =>
    match st.queue with
    | [] => st
    | nodeId :: rest => bfsRun adj fuel (bfsStep adj st nodeId rest)

/-- Steps 1 to 3 of getLayoutedElements up to entering the loop: build the
maps, seed the queue with every node whose in-degree is 0 at layer 0. -/
def initState (nodes : List RNode) (edges : List REdge) : BfsState :=
  let indeg := buildInDeg nodes edges
  let roots := nodes.filter (fun n => mget indeg n.id == some 0)
  { layers := roots.foldl (fun m n => mset m n.id 0) [],
    counts := [],
    indeg := indeg,
    nodes := nodes,
    queue := roots.map (fun n => n.id) }

/-- The complete BFS phase of getLayoutedElements on a given input. -/
def layoutBfs (nodes : List RNode) (edges : List REdge) : BfsState :=
  bfsRun (buildAdj nodes edges) (nodes.length + edges.length) (initState nodes edges)

/-- The layer assignment getLayoutedElements computes: the layers map at
the end of the BFS.  A node id absent from it was never assigned a
layer. -/
def assignLayers (nodes : List RNode) (edges : List REdge) : List (String × Int) :=
  (layoutBfs nodes edges).layers

/-- Math.max over the values of the layerCounts map; none models the
JavaScript result -Infinity on an empty map. -/
def valuesMax : List (Int × Int) → Option Int
  | [] => none
  | (_, v) :: rest =>
    match valuesMax rest with
    | none => some v
    | some w => some (max v w)

/-- Step 4 of getLayoutedElements for one node: add the centering offset
(totalWidth - layerWidth) / 2 to its x coordinate.  When the node never
got a layer (or, unreachably, its layer has no count / there is no total
width) the JavaScript arithmetic involves undefined and produces NaN,
modelled by px := none. -/
def centerNode (layers : List (String × Int)) (counts : List (Int × Int))
    (totalWidth : Option Int) (n : RNode) : RNode :=
  match mget layers n.id with
  | none => { n with px := none }
  | some layer =>
    match mget counts layer, totalWidth with
    | some cnt, some total =>
      let layerWidth := cnt * nodeWidth + (cnt - 1) * horizontalSpacing
      let offsetX := (total - layerWidth) / 2
      { n with px := n.px.map (fun x => x + offsetX) }
    | _, _ => { n with px := none }

/-- getLayoutedElements from GraphDisplay.js: BFS layering followed by
per-layer horizontal centering; returns the node list with updated
positions together with the untouched edge list. -/
def getLayoutedElements (nodes : List RNode) (edges : List REdge) :
    List RNode × List REdge :=
  let stf := layoutBfs nodes edges
  let totalWidth := (valuesMax stf.counts).map
    (fun m => m * nodeWidth + (m - 1) * horizontalSpacing)
  (stf.nodes.map (centerNode stf.layers stf.counts totalWidth), edges)

/-- A raw graphData node as App.js holds it: id, label, and an optional
data bag (validation results end up inside data). -/
structure GNode where
  id : String
  label : String
  data : Option (List (String × JVal))
  deriving DecidableEq, Repr

/-- The graphData prop: raw nodes and edges. -/
structure GraphData where
  nodes : List GNode
  edges : List REdge
  deriving DecidableEq, Repr

/-- The label the reconcile step stores: node.data-dot-label when that is
truthy, otherwise the formatted default built from the raw id and
label. -/
def mkLabel (n : GNode) : JVal :=
  match mget (n.data.getD []) "label" with
  | some v => if truthy v then v else JVal.str ("(" ++ n.id ++ ") " ++ n.label)
  | none => JVal.str ("(" ++ n.id ++ ") " ++ n.label)

/-- The data bag the reconcile step stores for a node: the incoming bag
spread first, then the label key overwritten. -/
def mkNodeData (n : GNode) : List (String × JVal) :=
  mset (n.data.getD []) "label" (mkLabel n)

/-- The Map of current on-screen positions the reconcile step builds from
the rendered nodes (later entries of a duplicate key overwrite earlier
ones, as in the Map constructor). -/
def posMapOf (rendered : List RNode) : List (String × (Option Int × Int)) :=
  rendered.foldl (fun m n => mset m n.id (n.px, n.py)) []

/-- The reconcile step of the layout effect in the current GraphDisplay:
if any nodes are already rendered (isUpdate) every incoming node keeps
the recorded position of its id when one exists and gets (0,0)
otherwise, and the layout algorithm is not run; only when nothing is
rendered yet does the full layout run.  The returned boolean is true iff
the full layout ran (the isFreshLayout observable of the spec). -/
def syncStep (rendered : List RNode) (g : GraphData) : List RNode × Bool :=
  let isUpdate := !rendered.isEmpty
  let currentPositions := posMapOf rendered
  let newNodes := g.nodes.map (fun n =>
    let existingPos := mget currentPositions n.id
    let pos : Option Int × Int :=
      match isUpdate, existingPos with
      | true, some p => p
      | _, _ => (some 0, 0)
    { id := n.id, data := mkNodeData n, px := pos.1, py := pos.2 })
  if isUpdate then (newNodes, false)
  else ((getLayoutedElements newNodes g.edges).1, true)

/-- One entry of the validate-proof response: per-node validity flag and
critique text. -/
structure VRes where
  isValid : Bool
  critique : String
  deriving DecidableEq, Repr

/-- The merge handleValidate performs in App.js: for every node with a
validation result, spread the old data and overwrite the isValid and
critique keys; nodes without a result are returned unchanged. -/
def handleValidateMerge (nodes : List GNode) (results : List (String × VRes)) :
    List GNode :=
  nodes.map (fun node =>
    match mget results node.id with
    | some validation =>
      { node with
        data := some (mset (mset (node.data.getD []) "isValid"
          (JVal.bool validation.isValid)) "critique"
          (JVal.str validation.critique)) }
    | none => node)

/-- The two element styles the highlight effects assign: opacity 1
(NORMAL) and opacity 0.2 (DIMMED). -/
inductive Emphasis where
  | NORMAL
  | DIMMED
  deriving DecidableEq, Repr

/-- The node rule of the neighbor-highlight (adjacency-based) effect: with
no selection every node is NORMAL; otherwise a node is NORMAL iff it is
the selected node or shares an edge with it, and DIMMED otherwise. -/
def nodeEmphasis (selectedNodeId : Option String) (gedges : List REdge)
    (nodeId : String) : Emphasis :=
  match selectedNodeId with
  | none => .NORMAL
  | some sel =>
    let isConnected := gedges.any (fun e =>
      (e.source == sel && e.target == nodeId) ||
      (e.target == sel && e.source == nodeId))
    if nodeId == sel || isConnected then .NORMAL else .DIMMED

/-- The edge rule of the neighbor-highlight (adjacency-based) effect: with
no selection every edge is NORMAL; otherwise an edge is NORMAL iff one of
its endpoints is the selected node. -/
def edgeEmphasis (selectedNodeId : Option String) (e : REdge) : Emphasis :=
  match selectedNodeId with
  | none => .NORMAL
  | some sel => if e.source == sel || e.target == sel then .NORMAL else .DIMMED

/-- What MathNode renders from a node's data bag: whether the invalid
presentation (red border, red background, warning icon) is shown, and
the hover tooltip.  isValid defaults to true when the field is absent,
critique defaults to the empty string when absent or falsy. -/
structure MathNodeView where
  invalid : Bool
  tooltip : JVal
  deriving DecidableEq, Repr

/-- The validation logic at the top of MathNode: isValid is
data.isValid unless that is undefined (then true), critique is
data.critique or the empty string; the invalid presentation is shown iff
isValid is falsy, and the tooltip is empty when valid and the critique
when invalid. -/
def mathNodeView (data : List (String × JVal)) : MathNodeView :=
  let isValid : JVal :=
    match mget data "isValid" with
    | none => JVal.bool true
    | some v => v
  let critique : JVal :=
    match mget data "critique" with
    | some v => if truthy v then v else JVal.str ""
    | none => JVal.str ""
  { invalid := !(truthy isValid),
    tooltip := if truthy isValid then JVal.str "" else critique }

/-- Proof-side termination measure component: the sum of the positive
parts of the values of an in-degree map. -/
def sumPos (m : List (String × Int)) : Nat := (m.map (fun p => p.2.toNat)).sum

/-- Proof-side reformulation of the in-degree updates procChildren
performs: decrement each listed child in order. -/
def decAll : List (String × Int) → List String → List (String × Int)
  | m, [] => m
  | m, c :: rest => decAll (mset m c ((mget m c).getD 0 - 1)) rest

/-- Proof-side reformulation of the enqueueing procChildren performs: the
children whose decrement lands exactly on 0, in order. -/
def hits : List (String × Int) → List String → List String
  | _, [] => []
  | m, c :: rest =>
    let v := (mget m c).getD 0 - 1
    if v = 0 then c :: hits (mset m c v) rest else hits (mset m c v) rest

/-- Proof-side: replay a list of position writes (id, x, y) with
setFirstPos, in order. -/
def applyWrites (ws : List (String × Int × Int)) (l : List RNode) : List RNode :=
  ws.foldl (fun acc w => setFirstPos acc w.1 w.2.1 w.2.2) l

/-- Proof-side: the effect of a list of position writes on one node. -/
def applyWElem (ws : List (String × Int × Int)) (e : RNode) : RNode :=
  ws.foldl (fun z w =>
    if z.id = w.1 then { z with px := some w.2.1, py := w.2.2 } else z) e

/-- Proof-side: the components of a BFS state other than the node list
(the node list never influences how they evolve). -/
structure BfsCore where
  layers : List (String × Int)
  counts : List (Int × Int)
  indeg : List (String × Int)
  queue : List String
  deriving Repr

/-- Proof-side projection to the non-node components. -/
def coreOf (st : BfsState) : BfsCore :=
  { layers := st.layers, counts := st.counts, indeg := st.indeg, queue := st.queue }

/-- Proof-side: a node id counts as processed when it has been assigned a
layer and is no longer waiting in the queue (i.e. it has been dequeued). -/
def isProcessed (st : BfsState) (s : String) : Bool :=
  (mget st.layers s).isSome && !(decide (s ∈ st.queue))

/-- Proof-side: how many edges go from s to t, read off the adjacency
map. -/
def occ (adj : List (String × List String)) (s t : String) : Nat :=
  ((mget adj s).getD []).count t

/-- Proof-side: the number of decrements already applied to t, i.e. the
edges into t from processed sources. -/
def procCount (adj : List (String × List String)) (ids : List String)
    (st : BfsState) (t : String) : Nat :=
  ((ids.filter (fun s => isProcessed st s)).map (fun s => occ adj s t)).sum

/-- The number of edges whose target is t. -/
def edgeCount (edges : List REdge) (t : String) : Nat :=
  (edges.filter (fun e => e.target == t)).length

/-- The targets of the edges whose source is s, in input order (the
adjacency list the layout builds for a node id s). -/
def srcTargets (edges : List REdge) (s : String) : List String :=
  (edges.filter (fun e => e.source == s)).map (fun e => e.target)

/-- Proof-side: the queue always consists of a block of ids at some layer
L followed by a block at layer L + 1. -/
def Zoned (layers : List (String × Int)) (q : List String) (L : Int) : Prop :=
  ∃ q1 q2, q = q1 ++ q2 ∧ (∀ x ∈ q1, mget layers x = some L) ∧
    (∀ x ∈ q2, mget layers x = some (L + 1))

/-- Proof-side: the ambient facts about the maps the layout builds before
entering the loop, phrased abstractly so the loop invariant can use
them. -/
structure LayAmbient (adj : List (String × List String))
    (indeg0 : List (String × Int)) (ids : List String)
    (edges0 : List REdge) : Prop where
  nodupIds : ids.Nodup
  indegDom : ∀ t, (mget indeg0 t).isSome ↔ t ∈ ids
  indegVal : ∀ t v, mget indeg0 t = some v →
    v = ((ids.map (fun s => occ adj s t)).sum : Int)
  occDom : ∀ s, s ∉ ids → mget adj s = none
  occEdge : ∀ e ∈ edges0, 1 ≤ occ adj e.source e.target
  occTarget : ∀ s t, occ adj s t ≠ 0 → (mget indeg0 t).isSome
  occMem : ∀ s t, occ adj s t ≠ 0 → (⟨s, t⟩ : REdge) ∈ edges0

/-- Proof-side: the loop invariant of the BFS layering phase, for inputs
whose edges all have endpoints in the (duplicate-free) node id set. -/
structure LayInv (adj : List (String × List String))
    (indeg0 : List (String × Int)) (ids : List String)
    (edges0 : List REdge) (st : BfsState) : Prop where
  acc : ∀ t v, mget indeg0 t = some v →
    mget st.indeg t = some (v - (procCount adj ids st t : Int))
  accNone : ∀ t, mget indeg0 t = none → mget st.indeg t = none
  asgIds : ∀ t, (mget st.layers t).isSome → t ∈ ids
  queueAsg : ∀ t ∈ st.queue, (mget st.layers t).isSome
  queueNodup : st.queue.Nodup
  zeroAsg : ∀ t, mget st.indeg t = some 0 → (mget st.layers t).isSome
  asgZero : ∀ t, (mget st.layers t).isSome → mget st.indeg t = some 0
  edgeLt : ∀ e ∈ edges0, ∀ lt, mget st.layers e.target = some lt →
    ∃ ls, mget st.layers e.source = some ls ∧ ls < lt
  zone : ∃ L, Zoned st.layers st.queue L ∧
    ∀ p, isProcessed st p = true → ∃ lp, mget st.layers p = some lp ∧ lp ≤ L

/-- mset stores the value at its key. -/
theorem mget_mset_self {K V : Type} [DecidableEq K] (m : List (K × V)) (k : K) (v : V) :
    mget (mset m k v) k = some v := by
  induction m with
  | nil => simp [mset, mget]
  | cons p rest ih =>
    by_cases h : p.1 = k
    · simp [mset, h, mget]
    · simp [mset, h, mget, ih]

/-- mset leaves other keys alone. -/
theorem mget_mset_ne {K V : Type} [DecidableEq K] (m : List (K × V)) (k t : K) (v : V)
    (h : t ≠ k) : mget (mset m k v) t = mget m t := by
  induction m with
  | nil =>
    simp only [mset, mget]
    rw [if_neg (fun hh => h hh.symm)]
  | cons p rest ih =>
    obtain ⟨k1, v1⟩ := p
    by_cases hp : k1 = k
    · subst hp
      simp only [mset, if_pos rfl, mget]
      rw [if_neg (fun hh => h hh.symm), if_neg (fun hh => h hh.symm)]
    · simp only [mset, if_neg hp, mget, ih]

/-- Which keys are present after an mset. -/
theorem mget_mset_isSome {K V : Type} [DecidableEq K] (m : List (K × V)) (k t : K) (v : V) :
    (mget (mset m k v) t).isSome = ((mget m t).isSome || t == k) := by
  by_cases h : t = k
  · subst h; simp [mget_mset_self]
  · simp [mget_mset_ne m k t v h, h]

/-- Lookup distributes over append, preferring the left list. -/
theorem mget_append {K V : Type} [DecidableEq K] (a b : List (K × V)) (t : K) :
    mget (a ++ b) t = match mget a t with
      | some v => some v
      | none => mget b t := by
  induction a with
  | nil => simp [mget]
  | cons p rest ih =>
    by_cases h : p.1 = t
    · simp [mget, h]
    · simp [mget, h, ih]

/-- A left fold of msets looks up like the reversed pair list followed by
the start map (i.e. the last write to a key wins). -/
theorem mget_foldl_mset {K V : Type} [DecidableEq K] (l : List (K × V))
    (m0 : List (K × V)) (t : K) :
    mget (l.foldl (fun m p => mset m p.1 p.2) m0) t =
      match mget l.reverse t with
      | some v => some v
      | none => mget m0 t := by
  induction l generalizing m0 with
  | nil => simp [mget]
  | cons p rest ih =>
    obtain ⟨k1, v1⟩ := p
    rw [List.foldl_cons, ih, List.reverse_cons, mget_append]
    by_cases h : t = k1
    · subst h
      cases hr : mget rest.reverse t with
      | none => simp [hr, mget, mget_mset_self]
      | some v => simp [hr]
    · have h2 : mget [(k1, v1)] t = none := by
        simp only [mget]
        rw [if_neg (fun hh => h hh.symm)]
      cases hr : mget rest.reverse t with
      | none => simp [hr, h2, mget_mset_ne _ _ _ _ h]
      | some v => simp [hr]

/-- setFirstPos keeps the id sequence unchanged. -/
theorem setFirstPos_map_id (l : List RNode) (i : String) (x y : Int) :
    (setFirstPos l i x y).map (fun n => n.id) = l.map (fun n => n.id) := by
  induction l with
  | nil => rfl
  | cons n rest ih =>
    by_cases h : n.id = i
    · simp [setFirstPos, h]
    · simp [setFirstPos, h, ih]

/-- setFirstPos is the identity when no element carries the id. -/
theorem setFirstPos_not_mem (l : List RNode) (i : String) (x y : Int)
    (h : ∀ n ∈ l, n.id ≠ i) : setFirstPos l i x y = l := by
  induction l with
  | nil => rfl
  | cons n rest ih =>
    simp only [setFirstPos]
    rw [if_neg (h n (by simp)), ih (fun m hm => h m (by simp [hm]))]

/-- On a duplicate-free node list setFirstPos is a pointwise update. -/
theorem setFirstPos_nodup (l : List RNode) (i : String) (x y : Int)
    (h : (l.map (fun n => n.id)).Nodup) :
    setFirstPos l i x y =
      l.map (fun n => if n.id = i then { n with px := some x, py := y } else n) := by
  induction l with
  | nil => rfl
  | cons n rest ih =>
    simp only [List.map_cons, List.nodup_cons] at h
    obtain ⟨hni, hrest⟩ := h
    by_cases hn : n.id = i
    · simp only [setFirstPos, if_pos hn, List.map_cons, if_pos hn]
      have hid : ∀ m ∈ rest, (if m.id = i then
          { m with px := some x, py := y } else m) = m := by
        intro m hm
        rw [if_neg]
        intro hmi
        apply hni
        have hmn : m.id = n.id := by rw [hmi, hn]
        rw [← hmn]
        exact List.mem_map_of_mem (fun n => n.id) hm
      rw [List.map_congr_left hid]
      simp
    · simp [setFirstPos, hn, ih hrest]

/-- Lookup in a pair list whose values are all equal to a constant. -/
theorem mget_const_pairs {K V : Type} [DecidableEq K] (pl : List (K × V)) (c : V) (t : K)
    (h : ∀ p ∈ pl, p.2 = c) :
    mget pl t = if t ∈ pl.map (fun p => p.1) then some c else none := by
  induction pl with
  | nil => simp [mget]
  | cons p rest ih =>
    obtain ⟨k1, v1⟩ := p
    have hrest : ∀ q ∈ rest, q.2 = c := fun q hq => h q (by simp [hq])
    have hv : v1 = c := h (k1, v1) (by simp)
    by_cases hk : k1 = t
    · simp [mget, hk, hv]
    · have htk : t ≠ k1 := fun hh => hk hh.symm
      simp only [mget, if_neg hk, ih hrest, List.map_cons]
      by_cases hm : t ∈ List.map (fun p => p.1) rest
      · rw [if_pos hm, if_pos (List.mem_cons_of_mem _ hm)]
      · rw [if_neg hm, if_neg (by simp [List.mem_cons, htk, hm])]

/-- Lookup after seeding every node id with a constant value. -/
theorem mget_fold_const {V : Type} (l : List RNode) (m0 : List (String × V)) (c : V)
    (t : String) :
    mget (l.foldl (fun m n => mset m n.id c) m0) t =
      if t ∈ l.map (fun n => n.id) then some c else mget m0 t := by
  have h1 : l.foldl (fun m n => mset m n.id c) m0 =
      (l.map (fun n => (n.id, c))).foldl (fun m p => mset m p.1 p.2) m0 := by
    rw [List.foldl_map]
  rw [h1, mget_foldl_mset]
  rw [mget_const_pairs ((l.map (fun n => (n.id, c))).reverse) c t
    (by intro p hp; simp only [List.mem_reverse, List.mem_map] at hp
        obtain ⟨n, _, hn⟩ := hp; rw [← hn])]
  have hmem : t ∈ ((l.map (fun n => (n.id, c))).reverse).map (fun p => p.1) ↔
      t ∈ l.map (fun n => n.id) := by
    rw [List.map_reverse, List.mem_reverse, List.map_map]
    exact Iff.rfl
  by_cases ht : t ∈ l.map (fun n => n.id)
  · rw [if_pos (hmem.mpr ht), if_pos ht]
  · rw [if_neg (fun hc => ht (hmem.mp hc)), if_neg ht]

/-- How srcTargets unfolds on a cons. -/
theorem srcTargets_cons (e : REdge) (rest : List REdge) (s : String) :
    srcTargets (e :: rest) s =
      if e.source = s then e.target :: srcTargets rest s else srcTargets rest s := by
  by_cases h : e.source = s <;> simp [srcTargets, List.filter_cons, h]

/-- How edgeCount unfolds on a cons. -/
theorem edgeCount_cons (e : REdge) (rest : List REdge) (t : String) :
    edgeCount (e :: rest) t =
      if e.target = t then edgeCount rest t + 1 else edgeCount rest t := by
  by_cases h : e.target = t <;> simp [edgeCount, List.filter_cons, h]

/-- The edge fold of buildAdj appends each source's targets to its entry
and never creates entries. -/
theorem buildAdj_fold_mget (edges : List REdge) (m : List (String × List String))
    (s : String) :
    mget (edges.foldl (fun m e =>
        match mget m e.source with
        | some children => mset m e.source (children ++ [e.target])
        | none => m) m) s =
      (mget m s).map (fun l => l ++ srcTargets edges s) := by
  induction edges generalizing m with
  | nil =>
    cases h : mget m s <;> simp [h, srcTargets]
  | cons e rest ih =>
    rw [List.foldl_cons]
    by_cases hs : e.source = s
    · subst hs
      cases h : mget m e.source with
      | none => simp only [h]; rw [ih]; simp [h, srcTargets_cons]
      | some l =>
        simp only [h]
        rw [ih]
        rw [mget_mset_self]
        simp [srcTargets_cons, h]
    · cases h : mget m e.source with
      | none => simp only [h]; rw [ih]; simp [srcTargets_cons, hs]
      | some l =>
        simp only [h]
        rw [ih]
        rw [mget_mset_ne _ _ _ _ (fun hh => hs hh.symm)]
        simp [srcTargets_cons, hs]

/-- Full characterization of the adjacency map. -/
theorem buildAdj_mget (nodes : List RNode) (edges : List REdge) (s : String) :
    mget (buildAdj nodes edges) s =
      if s ∈ nodes.map (fun n => n.id) then some (srcTargets edges s) else none := by
  unfold buildAdj
  rw [buildAdj_fold_mget, mget_fold_const]
  by_cases h : s ∈ nodes.map (fun n => n.id) <;> simp [h, mget]

/-- The edge fold of buildInDeg adds the number of incoming edges to each
entry, creating the entry when it is missing and the count is not 0. -/
theorem buildInDeg_fold_mget (edges : List REdge) (m : List (String × Int)) (t : String) :
    mget (edges.foldl (fun m e => mset m e.target ((mget m e.target).getD 0 + 1)) m) t =
      if edgeCount edges t = 0 then mget m t
      else some ((mget m t).getD 0 + edgeCount edges t) := by
  induction edges generalizing m with
  | nil => simp [edgeCount]
  | cons e rest ih =>
    rw [List.foldl_cons, ih]
    by_cases h : e.target = t
    · subst h
      rw [mget_mset_self]
      rw [edgeCount_cons, if_pos rfl]
      by_cases h0 : edgeCount rest e.target = 0
      · simp [h0]
      · rw [if_neg h0, if_neg (by omega : ¬(edgeCount rest e.target + 1 = 0))]
        simp only [Option.getD_some]
        congr 1
        push_cast
        omega
    · rw [mget_mset_ne _ _ _ _ (fun hh => h hh.symm)]
      rw [edgeCount_cons, if_neg h]

/-- Full characterization of the in-degree map. -/
theorem buildInDeg_mget (nodes : List RNode) (edges : List REdge) (t : String) :
    mget (buildInDeg nodes edges) t =
      if t ∈ nodes.map (fun n => n.id) ∨ edgeCount edges t ≠ 0
      then some ((edgeCount edges t : Int)) else none := by
  unfold buildInDeg
  rw [buildInDeg_fold_mget, mget_fold_const]
  by_cases ht : t ∈ nodes.map (fun n => n.id)
  · by_cases h0 : edgeCount edges t = 0 <;> simp [ht, h0, mget]
  · by_cases h0 : edgeCount edges t = 0 <;> simp [ht, h0, mget]

/-- procChildren in terms of decAll and hits: it decrements the children,
assigns layer + 1 to the ones that land on 0 and appends them to the
queue; counts and nodes are untouched. -/
theorem procChildren_spec (layer : Int) (children : List String) (st : BfsState) :
    procChildren layer children st =
      { layers := (hits st.indeg children).foldl (fun l c => mset l c (layer + 1)) st.layers,
        counts := st.counts,
        indeg := decAll st.indeg children,
        nodes := st.nodes,
        queue := st.queue ++ hits st.indeg children } := by
  induction children generalizing st with
  | nil => simp [procChildren, decAll, hits]
  | cons c rest ih =>
    simp only [procChildren, decAll, hits]
    by_cases h : (mget st.indeg c).getD 0 - 1 = 0
    · rw [if_pos h, if_pos h, ih]
      simp [List.foldl_cons, List.append_assoc]
    · rw [if_neg h, if_neg h, ih]

/-- Lookup after the sequential decrements of decAll. -/
theorem decAll_mget (children : List String) (m : List (String × Int)) (t : String) :
    mget (decAll m children) t =
      if children.count t = 0 then mget m t
      else some ((mget m t).getD 0 - children.count t) := by
  induction children generalizing m with
  | nil => simp [decAll]
  | cons c rest ih =>
    simp only [decAll]
    rw [ih]
    by_cases h : c = t
    · subst h
      rw [mget_mset_self]
      rw [List.count_cons_self]
      by_cases h0 : rest.count c = 0
      · rw [if_pos h0, if_neg (by omega : ¬(rest.count c + 1 = 0))]
        rw [h0]
        norm_num
      · rw [if_neg h0, if_neg (by omega : ¬(rest.count c + 1 = 0))]
        simp only [Option.getD_some]
        congr 1
        push_cast
        omega
    · rw [mget_mset_ne _ _ _ _ (fun hh => h hh.symm)]
      rw [List.count_cons_of_ne (fun hh => h hh.symm)]

/-- Membership in hits: a child lands on zero exactly when its starting
value is between 1 and its multiplicity among the children. -/
theorem hits_mem (children : List String) (m : List (String × Int)) (t : String) :
    t ∈ hits m children ↔
      1 ≤ (mget m t).getD 0 ∧ (mget m t).getD 0 ≤ (children.count t : Int) := by
  induction children generalizing m with
  | nil =>
    simp only [hits, List.count_nil, List.not_mem_nil, false_iff, Nat.cast_zero]
    omega
  | cons c rest ih =>
    simp only [hits]
    by_cases h : c = t
    · subst h
      rw [List.count_cons_self]
      by_cases hv : (mget m c).getD 0 - 1 = 0
      · rw [if_pos hv]
        simp only [List.mem_cons, true_or, true_iff]
        push_cast
        omega
      · rw [if_neg hv, ih, mget_mset_self]
        simp only [Option.getD_some]
        push_cast
        omega
    · have htc : t ≠ c := fun hh => h hh.symm
      rw [List.count_cons_of_ne htc]
      by_cases hv : (mget m c).getD 0 - 1 = 0
      · rw [if_pos hv]
        simp only [List.mem_cons, htc, false_or, ih, mget_mset_ne _ _ _ _ htc]
      · rw [if_neg hv, ih, mget_mset_ne _ _ _ _ htc]

/-- The hit children are pairwise distinct. -/
theorem hits_nodup (children : List String) (m : List (String × Int)) :
    (hits m children).Nodup := by
  induction children generalizing m with
  | nil => simp [hits]
  | cons c rest ih =>
    simp only [hits]
    by_cases hv : (mget m c).getD 0 - 1 = 0
    · rw [if_pos hv]
      refine List.nodup_cons.mpr ⟨?_, ih _⟩
      rw [hits_mem, mget_mset_self]
      simp only [Option.getD_some]
      omega
    · rw [if_neg hv]
      exact ih _

/-- sumPos after mset on a missing key. -/
theorem sumPos_mset_none (m : List (String × Int)) (k : String) (v : Int)
    (h : mget m k = none) : sumPos (mset m k v) = sumPos m + v.toNat := by
  induction m with
  | nil => simp [mset, sumPos]
  | cons p rest ih =>
    obtain ⟨k1, v1⟩ := p
    simp only [mget] at h
    by_cases hk : k1 = k
    · rw [if_pos hk] at h
      exact absurd h (by simp)
    · rw [if_neg hk] at h
      simp only [mset, if_neg hk, sumPos, List.map_cons, List.sum_cons]
      have := ih h
      simp only [sumPos] at this
      omega

/-- sumPos after mset on a present key. -/
theorem sumPos_mset_some (m : List (String × Int)) (k : String) (v w : Int)
    (h : mget m k = some w) : sumPos (mset m k v) + w.toNat = sumPos m + v.toNat := by
  induction m with
  | nil => simp [mget] at h
  | cons p rest ih =>
    obtain ⟨k1, v1⟩ := p
    simp only [mget] at h
    by_cases hk : k1 = k
    · rw [if_pos hk] at h
      have hv1 : v1 = w := by injection h
      subst hv1
      simp only [mset, if_pos hk, sumPos, List.map_cons, List.sum_cons]
      omega
    · rw [if_neg hk] at h
      simp only [mset, if_neg hk, sumPos, List.map_cons, List.sum_cons]
      have := ih h
      simp only [sumPos] at this
      omega

/-- Each pass of decAll loses at least one unit of the measure for each
hit child. -/
theorem decAll_measure (children : List String) (m : List (String × Int)) :
    sumPos (decAll m children) + (hits m children).length ≤ sumPos m := by
  induction children generalizing m with
  | nil => simp [decAll, hits]
  | cons c rest ih =>
    simp only [decAll, hits]
    cases hm : mget m c with
    | none =>
      simp only [Option.getD_none]
      rw [if_neg (by omega : ¬((0 : Int) - 1 = 0))]
      have hs := sumPos_mset_none m c (0 - 1) hm
      have hrec := ih (mset m c (0 - 1))
      omega
    | some w =>
      simp only [Option.getD_some]
      have hs := sumPos_mset_some m c (w - 1) w hm
      have hrec := ih (mset m c (w - 1))
      by_cases hv : w - 1 = 0
      · rw [if_pos hv]
        simp only [List.length_cons]
        omega
      · rw [if_neg hv]
        omega

/-- One loop iteration strictly decreases sumPos + queue length. -/
theorem bfsStep_measure (adj : List (String × List String)) (st : BfsState)
    (u : String) (rest : List String) :
    sumPos (bfsStep adj st u rest).indeg + (bfsStep adj st u rest).queue.length
      ≤ sumPos st.indeg + rest.length := by
  unfold bfsStep
  rw [procChildren_spec]
  simp only [List.length_append]
  have := decAll_measure ((mget adj u).getD []) st.indeg
  omega

/-- Any property preserved by one loop iteration is preserved by the
whole run. -/
theorem bfsRun_inv (adj : List (String × List String)) (P : BfsState → Prop)
    (hstep : ∀ st u rest, st.queue = u :: rest → P st → P (bfsStep adj st u rest)) :
    ∀ fuel st, P st → P (bfsRun adj fuel st) := by
  intro fuel
  induction fuel with
  | zero => intro st h; exact h
  | succ n ih =>
    intro st h
    cases hq : st.queue with
    | nil => simp only [bfsRun, hq]; exact h
    | cons u rest =>
      simp only [bfsRun, hq]
      exact ih _ (hstep st u rest hq h)

/-- With fuel at least sumPos + queue length the loop always drains the
queue; in particular the fuel nodes.length + edges.length used by
layoutBfs is sufficient (see layoutBfs_queue_empty). -/
theorem bfsRun_runs_out (adj : List (String × List String)) : ∀ fuel (st : BfsState),
    sumPos st.indeg + st.queue.length ≤ fuel → (bfsRun adj fuel st).queue = [] := by
  intro fuel
  induction fuel with
  | zero =>
    intro st h
    have : st.queue.length = 0 := by omega
    simpa [bfsRun] using List.length_eq_zero.mp this
  | succ n ih =>
    intro st h
    cases hq : st.queue with
    | nil => simp only [bfsRun, hq]
    | cons u rest =>
      simp only [bfsRun, hq]
      apply ih
      have := bfsStep_measure adj st u rest
      have hlen : st.queue.length = rest.length + 1 := by rw [hq]; simp
      omega

/-- Lookup after folding msets of a constant over a key list. -/
theorem mget_fold_keys {V : Type} (ks : List String) (c : V) (m0 : List (String × V))
    (t : String) :
    mget (ks.foldl (fun m k => mset m k c) m0) t = if t ∈ ks then some c else mget m0 t := by
  have h1 : ks.foldl (fun m k => mset m k c) m0 =
      (ks.map (fun k => (k, c))).foldl (fun m p => mset m p.1 p.2) m0 := by
    rw [List.foldl_map]
  rw [h1, mget_foldl_mset, mget_const_pairs _ c t
    (by intro p hp; simp only [List.mem_reverse, List.mem_map] at hp
        obtain ⟨k, _, hk⟩ := hp; rw [← hk])]
  have hmem : t ∈ ((ks.map (fun k => (k, c))).reverse).map (fun p => p.1) ↔ t ∈ ks := by
    rw [List.map_reverse, List.mem_reverse, List.map_map]
    simp
  by_cases ht : t ∈ ks
  · rw [if_pos (hmem.mpr ht), if_pos ht]
  · rw [if_neg (fun hc => ht (hmem.mp hc)), if_neg ht]

/-- A hit child is one of the children. -/
theorem hits_subset (children : List String) (m : List (String × Int)) (t : String)
    (h : t ∈ hits m children) : t ∈ children := by
  rw [hits_mem] at h
  have hc : 0 < children.count t := by
    by_contra h0
    push_neg at h0
    have : children.count t = 0 := by omega
    rw [this] at h
    simp only [Nat.cast_zero] at h
    omega
  exact List.count_pos_iff.mp hc

/-- The layers component after one loop iteration. -/
theorem bfsStep_layers (adj : List (String × List String)) (st : BfsState)
    (u : String) (rest : List String) :
    (bfsStep adj st u rest).layers =
      (hits st.indeg ((mget adj u).getD [])).foldl
        (fun l c => mset l c ((mget st.layers u).getD 0 + 1)) st.layers := by
  unfold bfsStep
  rw [procChildren_spec]

/-- The queue component after one loop iteration. -/
theorem bfsStep_queue (adj : List (String × List String)) (st : BfsState)
    (u : String) (rest : List String) :
    (bfsStep adj st u rest).queue = rest ++ hits st.indeg ((mget adj u).getD []) := by
  unfold bfsStep
  rw [procChildren_spec]

/-- The in-degree component after one loop iteration. -/
theorem bfsStep_indeg (adj : List (String × List String)) (st : BfsState)
    (u : String) (rest : List String) :
    (bfsStep adj st u rest).indeg = decAll st.indeg ((mget adj u).getD []) := by
  unfold bfsStep
  rw [procChildren_spec]

/-- The counts component after one loop iteration. -/
theorem bfsStep_counts (adj : List (String × List String)) (st : BfsState)
    (u : String) (rest : List String) :
    (bfsStep adj st u rest).counts =
      mset st.counts ((mget st.layers u).getD 0)
        ((mget st.counts ((mget st.layers u).getD 0)).getD 0 + 1) := by
  unfold bfsStep
  rw [procChildren_spec]

/-- The nodes component after one loop iteration. -/
theorem bfsStep_nodes (adj : List (String × List String)) (st : BfsState)
    (u : String) (rest : List String) :
    (bfsStep adj st u rest).nodes =
      setFirstPos st.nodes u
        ((mget st.counts ((mget st.layers u).getD 0)).getD 0 *
          (nodeWidth + horizontalSpacing))
        ((mget st.layers u).getD 0 * (nodeHeight + verticalSpacing)) := by
  unfold bfsStep
  rw [procChildren_spec]

/-- The centering step never changes a node's id, data or y coordinate. -/
theorem centerNode_parts (layers : List (String × Int)) (counts : List (Int × Int))
    (tw : Option Int) (n : RNode) :
    (centerNode layers counts tw n).id = n.id ∧
    (centerNode layers counts tw n).data = n.data ∧
    (centerNode layers counts tw n).py = n.py := by
  unfold centerNode
  split
  · exact ⟨rfl, rfl, rfl⟩
  · split
    · exact ⟨rfl, rfl, rfl⟩
    · exact ⟨rfl, rfl, rfl⟩

/-- The BFS phase only repositions nodes: the id sequence is untouched. -/
theorem layoutBfs_nodes_id (nodes : List RNode) (edges : List REdge) :
    ((layoutBfs nodes edges).nodes).map (fun n => n.id) = nodes.map (fun n => n.id) := by
  unfold layoutBfs
  exact bfsRun_inv (buildAdj nodes edges)
    (fun st => st.nodes.map (fun n => n.id) = nodes.map (fun n => n.id))
    (fun st u rest _ h => by
      dsimp only at h ⊢
      rw [bfsStep_nodes, setFirstPos_map_id]
      exact h)
    (nodes.length + edges.length) (initState nodes edges) rfl

/-- The node component of the layout result, unfolded. -/
theorem getLayoutedElements_fst (nodes : List RNode) (edges : List REdge) :
    (getLayoutedElements nodes edges).1 =
      (layoutBfs nodes edges).nodes.map
        (centerNode (layoutBfs nodes edges).layers (layoutBfs nodes edges).counts
          ((valuesMax (layoutBfs nodes edges).counts).map
            (fun m => m * nodeWidth + (m - 1) * horizontalSpacing))) := rfl

/-- The edge component of the layout result, unfolded. -/
theorem getLayoutedElements_snd (nodes : List RNode) (edges : List REdge) :
    (getLayoutedElements nodes edges).2 = edges := rfl

/-- The layout output carries exactly the input ids in input order. -/
theorem getLayoutedElements_map_id (nodes : List RNode) (edges : List REdge) :
    ((getLayoutedElements nodes edges).1).map (fun n => n.id)
      = nodes.map (fun n => n.id) := by
  rw [getLayoutedElements_fst, List.map_map]
  have hcong : ∀ n ∈ (layoutBfs nodes edges).nodes,
      ((fun n => n.id) ∘
        centerNode (layoutBfs nodes edges).layers (layoutBfs nodes edges).counts
          ((valuesMax (layoutBfs nodes edges).counts).map
            (fun m => m * nodeWidth + (m - 1) * horizontalSpacing))) n
        = (fun n => n.id) n :=
    fun n _ => (centerNode_parts _ _ _ n).1
  rw [List.map_congr_left hcong]
  exact layoutBfs_nodes_id nodes edges

/-- C9: the layout operation getLayoutedElements is total: on every input
(cyclic graphs, dangling-endpoint edges, the empty graph included) it
returns normally (in this embedding it is a total function), its node
output carries exactly the input ids in input order (so all input nodes
are returned even when the BFS never assigned them a layer), its edge
output is the input edge list, and an empty node set yields an empty
node result. -/
theorem claim_C9_theorem (nodes : List RNode) (edges : List REdge) :
    ((getLayoutedElements nodes edges).1).map (fun n => n.id) = nodes.map (fun n => n.id)
    ∧ (getLayoutedElements nodes edges).2 = edges
    ∧ (nodes = [] → (getLayoutedElements nodes edges).1 = []) := by
  have h1 := getLayoutedElements_map_id nodes edges
  refine ⟨h1, rfl, fun h => ?_⟩
  exact List.map_eq_nil_iff.mp (by rw [h1, h]; rfl)

/-- C9 witness: the conjuncts at a concrete input (the empty-graph
degenerate case among them), through claim_C9_theorem itself. -/
theorem claim_C9_witness :
    (((getLayoutedElements [] [⟨"A", "B"⟩]).1).map (fun n => n.id) =
      ([] : List RNode).map (fun n => n.id)
    ∧ (getLayoutedElements [] [⟨"A", "B"⟩]).2 = [⟨"A", "B"⟩]
    ∧ (([] : List RNode) = [] → (getLayoutedElements [] [⟨"A", "B"⟩]).1 = [])) :=
  claim_C9_theorem [] [⟨"A", "B"⟩]

/-- C6 counterexample: the claim says every node with no incoming edge
whose endpoints both exist gets layer 0, but a node targeted by an edge
from a nonexistent source (here ghost → A) has raw in-degree 1, is never
seeded as a root, and so is never assigned any layer at all — the code
counts dangling edges when it computes in-degrees. -/
theorem claim_C6_counterexample :
    mget (assignLayers [⟨"A", [], some 0, 0⟩] [⟨"ghost", "A"⟩]) "A" = none := by
  decide

/-- C6 (amended): every node that is the target of no input edge at all
(rather than no valid-endpoint edge) is assigned layer 0, and no node is
ever assigned a negative layer. -/
theorem claim_C6_theorem (nodes : List RNode) (edges : List REdge) (n : RNode)
    (hn : n ∈ nodes) (hroot : ∀ e ∈ edges, e.target ≠ n.id) :
    mget (assignLayers nodes edges) n.id = some 0 ∧
    ∀ t L, mget (assignLayers nodes edges) t = some L → 0 ≤ L := by
  constructor
  · have hchild : ∀ u, n.id ∉ (mget (buildAdj nodes edges) u).getD [] := by
      intro u
      rw [buildAdj_mget]
      by_cases hu : u ∈ nodes.map (fun n => n.id)
      · rw [if_pos hu]
        simp only [Option.getD_some]
        intro hmem
        unfold srcTargets at hmem
        simp only [List.mem_map, List.mem_filter] at hmem
        obtain ⟨e, ⟨he, _⟩, hte⟩ := hmem
        exact hroot e he hte
      · rw [if_neg hu]
        simp
    have hinit : mget (initState nodes edges).layers n.id = some 0 := by
      unfold initState
      dsimp only
      rw [mget_fold_const, if_pos]
      refine List.mem_map_of_mem (fun m : RNode => m.id) ?_
      rw [List.mem_filter]
      refine ⟨hn, ?_⟩
      rw [buildInDeg_mget]
      have hcnt : edgeCount edges n.id = 0 := by
        unfold edgeCount
        rw [List.length_eq_zero, List.filter_eq_nil_iff]
        intro e he
        simp only [beq_iff_eq]
        exact hroot e he
      rw [if_pos (Or.inl (List.mem_map_of_mem (fun m : RNode => m.id) hn)), hcnt]
      rfl
    exact bfsRun_inv (buildAdj nodes edges)
      (fun st => mget st.layers n.id = some 0)
      (fun st u rest _ h => by
        dsimp only at h ⊢
        rw [bfsStep_layers, mget_fold_keys, if_neg, h]
        intro hmem
        exact hchild u (hits_subset _ _ _ hmem))
      (nodes.length + edges.length) (initState nodes edges) hinit
  · exact bfsRun_inv (buildAdj nodes edges)
      (fun st => ∀ t L, mget st.layers t = some L → 0 ≤ L)
      (fun st u rest _ h => by
        dsimp only at h ⊢
        intro t L hL
        rw [bfsStep_layers, mget_fold_keys] at hL
        by_cases ht : t ∈ hits st.indeg ((mget (buildAdj nodes edges) u).getD [])
        · rw [if_pos ht] at hL
          have hLv : L = (mget st.layers u).getD 0 + 1 := by
            injection hL.symm
          cases hu : mget st.layers u with
          | none => rw [hu] at hLv; simp at hLv; omega
          | some Lu =>
            have := h u Lu hu
            rw [hu] at hLv
            simp only [Option.getD_some] at hLv
            omega
        · rw [if_neg ht] at hL
          exact h t L hL)
      (nodes.length + edges.length) (initState nodes edges)
      (by
        intro t L hL
        unfold initState at hL
        dsimp only at hL
        rw [mget_fold_const] at hL
        by_cases ht : t ∈ (nodes.filter
            (fun n => mget (buildInDeg nodes edges) n.id == some 0)).map (fun n => n.id)
        · rw [if_pos ht] at hL
          have : L = 0 := by injection hL.symm
          omega
        · rw [if_neg ht] at hL
          exact absurd hL (by simp [mget]))

/-- C6 witness: a concrete node with no incoming edges receives layer 0,
through claim_C6_theorem itself. -/
theorem claim_C6_witness :
    ((⟨"A", [], some 0, 0⟩ : RNode) ∈ ([⟨"A", [], some 0, 0⟩, ⟨"B", [], some 0, 0⟩] : List RNode)
    ∧ (∀ e ∈ ([⟨"A", "B"⟩] : List REdge), e.target ≠ "A")
    ∧ (mget (assignLayers [⟨"A", [], some 0, 0⟩, ⟨"B", [], some 0, 0⟩] [⟨"A", "B"⟩]) "A" = some 0
       ∧ ∀ t L, mget (assignLayers [⟨"A", [], some 0, 0⟩, ⟨"B", [], some 0, 0⟩] [⟨"A", "B"⟩]) t
          = some L → 0 ≤ L)) :=
  ⟨by decide, by decide,
    claim_C6_theorem [⟨"A", [], some 0, 0⟩, ⟨"B", [], some 0, 0⟩] [⟨"A", "B"⟩]
      ⟨"A", [], some 0, 0⟩ (by decide) (by decide)⟩

/-- C10: MathNode shows the invalid presentation (red border and
background, warning icon) iff the isValid field is present in the node
data and falsy; a node whose data lacks isValid renders with the valid
presentation and an empty tooltip; a missing critique defaults to the
empty string, so the tooltip is empty whenever critique is absent. -/
theorem claim_C10_theorem (data : List (String × JVal)) :
    ((mathNodeView data).invalid = true ↔
      ∃ v, mget data "isValid" = some v ∧ truthy v = false)
    ∧ (mget data "isValid" = none →
        (mathNodeView data).invalid = false ∧ (mathNodeView data).tooltip = JVal.str "")
    ∧ (mget data "critique" = none → (mathNodeView data).tooltip = JVal.str "") := by
  unfold mathNodeView
  cases hv : mget data "isValid" with
  | none =>
    cases hc : mget data "critique" <;> simp [truthy]
  | some v =>
    cases htv : truthy v with
    | false =>
      cases hc : mget data "critique" with
      | none => simp [htv]
      | some c =>
        cases hct : truthy c <;> simp [htv, hct]
    | true =>
      cases hc : mget data "critique" <;> simp [htv]

/-- C10 witness: the three conjuncts at a concrete data bag with a falsy
isValid and no critique, through claim_C10_theorem itself. -/
theorem claim_C10_witness :
    (((mathNodeView [("isValid", JVal.bool false)]).invalid = true ↔
      ∃ v, mget [("isValid", JVal.bool false)] "isValid" = some v ∧ truthy v = false)
    ∧ (mget [("isValid", JVal.bool false)] "isValid" = none →
        (mathNodeView [("isValid", JVal.bool false)]).invalid = false ∧
        (mathNodeView [("isValid", JVal.bool false)]).tooltip = JVal.str "")
    ∧ (mget [("isValid", JVal.bool false)] "critique" = none →
        (mathNodeView [("isValid", JVal.bool false)]).tooltip = JVal.str "")) :=
  claim_C10_theorem [("isValid", JVal.bool false)]

/-- C5: in the neighbor-highlight (adjacency-based) variant of the
highlight effect, with focal node X in a graph whose only edges touching
X are A → X and X → B: nodes A, X, B are NORMAL and every other node is
DIMMED; the edges A → X and X → B are NORMAL and every edge not touching
X is DIMMED. -/
theorem claim_C5_theorem (nodeIds : List String) (edges : List REdge) (A X B : String)
    (hAX : (⟨A, X⟩ : REdge) ∈ edges) (hXB : (⟨X, B⟩ : REdge) ∈ edges)
    (honly : ∀ e ∈ edges, e.source = X ∨ e.target = X →
      e = (⟨A, X⟩ : REdge) ∨ e = (⟨X, B⟩ : REdge)) :
    nodeEmphasis (some X) edges A = Emphasis.NORMAL ∧
    nodeEmphasis (some X) edges X = Emphasis.NORMAL ∧
    nodeEmphasis (some X) edges B = Emphasis.NORMAL ∧
    (∀ n ∈ nodeIds, n ≠ A → n ≠ X → n ≠ B →
      nodeEmphasis (some X) edges n = Emphasis.DIMMED) ∧
    edgeEmphasis (some X) (⟨A, X⟩ : REdge) = Emphasis.NORMAL ∧
    edgeEmphasis (some X) (⟨X, B⟩ : REdge) = Emphasis.NORMAL ∧
    (∀ e ∈ edges, e.source ≠ X → e.target ≠ X →
      edgeEmphasis (some X) e = Emphasis.DIMMED) := by
  refine ⟨?_, ?_, ?_, ?_, ?_, ?_, ?_⟩
  · unfold nodeEmphasis
    dsimp only
    rw [if_pos]
    rw [Bool.or_eq_true, List.any_eq_true]
    exact Or.inr ⟨⟨A, X⟩, hAX, by simp⟩
  · unfold nodeEmphasis
    dsimp only
    rw [if_pos]
    rw [Bool.or_eq_true]
    exact Or.inl (by simp)
  · unfold nodeEmphasis
    dsimp only
    rw [if_pos]
    rw [Bool.or_eq_true, List.any_eq_true]
    exact Or.inr ⟨⟨X, B⟩, hXB, by simp⟩
  · intro n _ hnA hnX hnB
    unfold nodeEmphasis
    dsimp only
    rw [if_neg]
    rw [Bool.or_eq_true, List.any_eq_true]
    rintro (hsel | ⟨e, he, hpred⟩)
    · exact hnX (by simpa using hsel)
    · rw [Bool.or_eq_true, Bool.and_eq_true, Bool.and_eq_true] at hpred
      simp only [beq_iff_eq] at hpred
      rcases hpred with ⟨h1, h2⟩ | ⟨h1, h2⟩
      · rcases honly e he (Or.inl h1) with h3 | h3
        · rw [h3] at h2; exact hnX h2.symm
        · rw [h3] at h2; exact hnB h2.symm
      · rcases honly e he (Or.inr h1) with h3 | h3
        · rw [h3] at h2; exact hnA h2.symm
        · rw [h3] at h2; exact hnX h2.symm
  · unfold edgeEmphasis
    dsimp only
    rw [if_pos]
    simp
  · unfold edgeEmphasis
    dsimp only
    rw [if_pos]
    simp
  · intro e _ hs ht
    unfold edgeEmphasis
    dsimp only
    rw [if_neg]
    rw [Bool.or_eq_true]
    rintro (h | h)
    · exact hs (by simpa using h)
    · exact ht (by simpa using h)

/-- C5 witness: the neighbor-highlight conjuncts at a concrete graph
(A → X, X → B, plus an edge C → D away from X), through
claim_C5_theorem itself. -/
theorem claim_C5_witness :
    ((⟨"A", "X"⟩ : REdge) ∈ ([⟨"A", "X"⟩, ⟨"X", "B"⟩, ⟨"C", "D"⟩] : List REdge)
    ∧ (⟨"X", "B"⟩ : REdge) ∈ ([⟨"A", "X"⟩, ⟨"X", "B"⟩, ⟨"C", "D"⟩] : List REdge)
    ∧ (∀ e ∈ ([⟨"A", "X"⟩, ⟨"X", "B"⟩, ⟨"C", "D"⟩] : List REdge),
        e.source = "X" ∨ e.target = "X" →
        e = (⟨"A", "X"⟩ : REdge) ∨ e = (⟨"X", "B"⟩ : REdge))
    ∧ (nodeEmphasis (some "X") [⟨"A", "X"⟩, ⟨"X", "B"⟩, ⟨"C", "D"⟩] "A" = Emphasis.NORMAL ∧
      nodeEmphasis (some "X") [⟨"A", "X"⟩, ⟨"X", "B"⟩, ⟨"C", "D"⟩] "X" = Emphasis.NORMAL ∧
      nodeEmphasis (some "X") [⟨"A", "X"⟩, ⟨"X", "B"⟩, ⟨"C", "D"⟩] "B" = Emphasis.NORMAL ∧
      (∀ n ∈ (["A", "X", "B", "C", "D"] : List String), n ≠ "A" → n ≠ "X" → n ≠ "B" →
        nodeEmphasis (some "X") [⟨"A", "X"⟩, ⟨"X", "B"⟩, ⟨"C", "D"⟩] n = Emphasis.DIMMED) ∧
      edgeEmphasis (some "X") (⟨"A", "X"⟩ : REdge) = Emphasis.NORMAL ∧
      edgeEmphasis (some "X") (⟨"X", "B"⟩ : REdge) = Emphasis.NORMAL ∧
      (∀ e ∈ ([⟨"A", "X"⟩, ⟨"X", "B"⟩, ⟨"C", "D"⟩] : List REdge),
        e.source ≠ "X" → e.target ≠ "X" →
        edgeEmphasis (some "X") e = Emphasis.DIMMED))) :=
  ⟨by decide, by decide, by decide,
    claim_C5_theorem ["A", "X", "B", "C", "D"] [⟨"A", "X"⟩, ⟨"X", "B"⟩, ⟨"C", "D"⟩]
      "A" "X" "B" (by decide) (by decide) (by decide)⟩

/-- C2 counterexample: previous state has node set {N1} at a recorded
position, the new graph has node set {N1, N2} (one node added); the
claim demands a full relayout with isFreshLayout = true discarding all
positions, but the reconcile step returns false (no layout ran), keeps
N1's recorded position (100, 5) verbatim and places the new N2 at
(0, 0): the code only checks whether any nodes are rendered, not whether
the node id set changed. -/
theorem claim_C2_counterexample :
    (syncStep [⟨"N1", [], some 100, 5⟩]
      ⟨[⟨"N1", "L1", none⟩, ⟨"N2", "L2", none⟩], []⟩).2 = false
    ∧ (syncStep [⟨"N1", [], some 100, 5⟩]
      ⟨[⟨"N1", "L1", none⟩, ⟨"N2", "L2", none⟩], []⟩).1.map (fun r => (r.id, r.px, r.py)) =
      [("N1", some 100, 5), ("N2", some 0, 0)] := by
  decide

/-- C2 (amended): whenever any nodes are already rendered, a reconcile
step — even one whose new graph has a different node id set — does not
rerun the layout: it returns isFreshLayout = false and gives every
incoming node the recorded position of its id when one exists and (0, 0)
otherwise; only a first render (no rendered nodes) runs full layering
and positioning. -/
theorem claim_C2_theorem (rendered : List RNode) (g : GraphData)
    (hne : rendered ≠ []) :
    (syncStep rendered g).2 = false ∧
    (syncStep rendered g).1.map (fun r => (r.id, (r.px, r.py))) =
      g.nodes.map (fun n => (n.id, (mget (posMapOf rendered) n.id).getD (some 0, 0))) := by
  have hup : rendered.isEmpty = false := by
    cases rendered with
    | nil => exact absurd rfl hne
    | cons a l => rfl
  unfold syncStep
  rw [hup]
  simp only [Bool.not_false]
  rw [if_pos trivial]
  refine ⟨rfl, ?_⟩
  dsimp only
  rw [List.map_map]
  refine List.map_congr_left ?_
  intro n _
  cases hm : mget (posMapOf rendered) n.id with
  | none => simp [hm]
  | some p => simp [hm]

/-- C2 witness: the amended behaviour at the concrete one-node-added
input, through claim_C2_theorem itself. -/
theorem claim_C2_witness :
    (([⟨"N1", [], some 100, 5⟩] : List RNode) ≠ []
    ∧ ((syncStep [⟨"N1", [], some 100, 5⟩]
        ⟨[⟨"N1", "L1", none⟩, ⟨"N2", "L2", none⟩], []⟩).2 = false ∧
      (syncStep [⟨"N1", [], some 100, 5⟩]
        ⟨[⟨"N1", "L1", none⟩, ⟨"N2", "L2", none⟩], []⟩).1.map (fun r => (r.id, (r.px, r.py))) =
        ([⟨"N1", "L1", none⟩, ⟨"N2", "L2", none⟩] : List GNode).map
          (fun n => (n.id, (mget (posMapOf [⟨"N1", [], some 100, 5⟩]) n.id).getD
            (some 0, 0))))) :=
  ⟨by decide,
    claim_C2_theorem [⟨"N1", [], some 100, 5⟩]
      ⟨[⟨"N1", "L1", none⟩, ⟨"N2", "L2", none⟩], []⟩ (by decide)⟩

/-- C7 counterexample: two nodes share the id A; the claim demands the
whole operation fail with a DuplicateIdError, but getLayoutedElements
returns a normal layout: the dequeue loop runs once per duplicate, both
times writing through nodes.find — which always picks the first object
with the id — so the first object ends at x = 600 (written twice) and
the second keeps its initial x plus the centering offset.  No error
value exists anywhere in the code. -/
theorem claim_C7_counterexample :
    getLayoutedElements [⟨"A", [], some 0, 0⟩, ⟨"A", [], some 0, 0⟩] [] =
      ([⟨"A", [], some 600, 0⟩, ⟨"A", [], some 0, 0⟩], []) := by
  decide

/-- C7 (amended): duplicate-id input does not fail the operation: the
layout returns normally, with every duplicate node object still present
in input order (BFS position writes silently go to the first object with
the id, as the counterexample shows concretely). -/
theorem claim_C7_theorem (nodes : List RNode) (edges : List REdge)
    (_hdup : ¬ (nodes.map (fun n => n.id)).Nodup) :
    ((getLayoutedElements nodes edges).1).map (fun n => n.id) = nodes.map (fun n => n.id)
    ∧ (getLayoutedElements nodes edges).2 = edges :=
  ⟨getLayoutedElements_map_id nodes edges, rfl⟩

/-- C7 witness: the amended behaviour at the concrete duplicate-id input,
through claim_C7_theorem itself. -/
theorem claim_C7_witness :
    (¬ (([⟨"A", [], some 0, 0⟩, ⟨"A", [], some 0, 0⟩] : List RNode).map
        (fun n => n.id)).Nodup
    ∧ (((getLayoutedElements [⟨"A", [], some 0, 0⟩, ⟨"A", [], some 0, 0⟩] []).1).map
        (fun n => n.id) =
        ([⟨"A", [], some 0, 0⟩, ⟨"A", [], some 0, 0⟩] : List RNode).map (fun n => n.id)
      ∧ (getLayoutedElements [⟨"A", [], some 0, 0⟩, ⟨"A", [], some 0, 0⟩] []).2 = [])) :=
  ⟨by decide,
    claim_C7_theorem [⟨"A", [], some 0, 0⟩, ⟨"A", [], some 0, 0⟩] [] (by decide)⟩

/-- C1 counterexample: on the cyclic input A → B, B → A the claim demands
a CycleError and no layout; the code has no error value at all: it
returns a normal (partial) result containing both nodes — their x
coordinates are NaN (none), their layers were never assigned — and
reports nothing to the caller. -/
theorem claim_C1_counterexample :
    getLayoutedElements [⟨"A", [], some 0, 0⟩, ⟨"B", [], some 0, 0⟩]
        [⟨"A", "B"⟩, ⟨"B", "A"⟩] =
      ([⟨"A", [], none, 0⟩, ⟨"B", [], none, 0⟩], [⟨"A", "B"⟩, ⟨"B", "A"⟩])
    ∧ mget (assignLayers [⟨"A", [], some 0, 0⟩, ⟨"B", [], some 0, 0⟩]
        [⟨"A", "B"⟩, ⟨"B", "A"⟩]) "A" = none := by
  decide

/-- A key is present in an association list iff it occurs among the
keys. -/
theorem mget_isSome_iff {K V : Type} [DecidableEq K] (pl : List (K × V)) (t : K) :
    (mget pl t).isSome ↔ t ∈ pl.map (fun p => p.1) := by
  induction pl with
  | nil => simp [mget]
  | cons p rest ih =>
    obtain ⟨k1, v1⟩ := p
    by_cases hk : k1 = t
    · simp [mget, hk]
    · have htk : t ≠ k1 := fun hh => hk hh.symm
      simp [mget, hk, ih, htk]

/-- Every rendered node id has a recorded position in the position map. -/
theorem posMapOf_mem (rendered : List RNode) (t : String)
    (h : t ∈ rendered.map (fun r => r.id)) :
    ∃ p, mget (posMapOf rendered) t = some p := by
  have hsome : (mget (posMapOf rendered) t).isSome := by
    unfold posMapOf
    rw [show rendered.foldl (fun m n => mset m n.id (n.px, n.py)) [] =
        (rendered.map (fun n => (n.id, (n.px, n.py)))).foldl
          (fun m p => mset m p.1 p.2) [] from by rw [List.foldl_map]]
    rw [mget_foldl_mset]
    cases hr : mget ((rendered.map (fun n => (n.id, (n.px, n.py)))).reverse) t with
    | some p => simp
    | none =>
      exfalso
      have hmem : (mget ((rendered.map (fun n => (n.id, (n.px, n.py)))).reverse) t).isSome := by
        rw [mget_isSome_iff, List.map_reverse, List.mem_reverse, List.map_map]
        simpa using h
      rw [hr] at hmem
      simp at hmem
  exact Option.isSome_iff_exists.mp hsome

/-- C4: a metadata-only reconcile (same node id set, incoming graph =
previous graph with validation results merged in by handleValidate)
keeps every node's position exactly as recorded (no layout recompute,
isFreshLayout = false), and merges shallowly: isValid and critique are
overwritten from the validation result, every other metadata key (label
is the display label the step always recomputes, not metadata) keeps its
previous value, and a node without a validation result keeps all its
metadata. -/
theorem claim_C4_theorem (rendered : List RNode) (prevNodes : List GNode)
    (gedges : List REdge) (results : List (String × VRes))
    (hne : rendered ≠ [])
    (hsub : ∀ n ∈ prevNodes, n.id ∈ rendered.map (fun r => r.id)) :
    (syncStep rendered ⟨handleValidateMerge prevNodes results, gedges⟩).2 = false ∧
    List.Forall₂ (fun (n : GNode) (r : RNode) =>
      r.id = n.id ∧
      mget (posMapOf rendered) n.id = some (r.px, r.py) ∧
      (∀ v, mget results n.id = some v →
        mget r.data "isValid" = some (JVal.bool v.isValid) ∧
        mget r.data "critique" = some (JVal.str v.critique)) ∧
      (∀ k, k ≠ "isValid" → k ≠ "critique" → k ≠ "label" →
        mget r.data k = mget (n.data.getD []) k) ∧
      (mget results n.id = none → ∀ k, k ≠ "label" →
        mget r.data k = mget (n.data.getD []) k))
      prevNodes (syncStep rendered ⟨handleValidateMerge prevNodes results, gedges⟩).1 := by
  have hup : rendered.isEmpty = false := by
    cases rendered with
    | nil => exact absurd rfl hne
    | cons a l => rfl
  constructor
  · unfold syncStep
    rw [hup]
    simp only [Bool.not_false]
    rw [if_pos trivial]
  · unfold syncStep
    rw [hup]
    simp only [Bool.not_false]
    rw [if_pos trivial]
    dsimp only
    unfold handleValidateMerge
    rw [List.map_map]
    rw [List.forall₂_map_right_iff]
    rw [List.forall₂_same]
    intro n hn
    obtain ⟨p, hp⟩ := posMapOf_mem rendered n.id (hsub n hn)
    cases hv : mget results n.id with
    | none =>
      simp only [Function.comp, hv]
      refine ⟨trivial, ?_, ?_, ?_, ?_⟩
      · rw [hp]
      · intro v hvv
        exact absurd hvv (by simp)
      · intro k hk1 hk2 hk3
        unfold mkNodeData
        rw [mget_mset_ne _ _ _ _ hk3]
      · intro _ k hk3
        unfold mkNodeData
        rw [mget_mset_ne _ _ _ _ hk3]
    | some v =>
      simp only [Function.comp, hv]
      refine ⟨trivial, ?_, ?_, ?_, ?_⟩
      · rw [hp]
      · intro v2 hvv
        have hv2 : v = v2 := by injection hvv
        subst hv2
        constructor
        · unfold mkNodeData
          rw [mget_mset_ne _ _ _ _ (by decide : ("isValid" : String) ≠ "label")]
          dsimp only
          rw [Option.getD_some]
          rw [mget_mset_ne _ _ _ _ (by decide : ("isValid" : String) ≠ "critique")]
          rw [mget_mset_self]
        · unfold mkNodeData
          rw [mget_mset_ne _ _ _ _ (by decide : ("critique" : String) ≠ "label")]
          dsimp only
          rw [Option.getD_some]
          rw [mget_mset_self]
      · intro k hk1 hk2 hk3
        unfold mkNodeData
        rw [mget_mset_ne _ _ _ _ hk3]
        dsimp only
        rw [Option.getD_some]
        rw [mget_mset_ne _ _ _ _ hk2, mget_mset_ne _ _ _ _ hk1]
      · intro hcontra
        exact absurd hcontra (by simp)

/-- C4 witness: the metadata-only reconcile behaviour at a concrete
one-node graph with a validation result, through claim_C4_theorem
itself. -/
theorem claim_C4_witness :
    (([⟨"N1", [("extra", JVal.str "keep")], some 100, 5⟩] : List RNode) ≠ []
    ∧ (∀ n ∈ ([⟨"N1", "L1", some [("extra", JVal.str "keep")]⟩] : List GNode),
        n.id ∈ ([⟨"N1", [("extra", JVal.str "keep")], some 100, 5⟩] : List RNode).map
          (fun r => r.id))
    ∧ ((syncStep [⟨"N1", [("extra", JVal.str "keep")], some 100, 5⟩]
        ⟨handleValidateMerge [⟨"N1", "L1", some [("extra", JVal.str "keep")]⟩]
          [("N1", ⟨false, "bad"⟩)], []⟩).2 = false ∧
      List.Forall₂ (fun (n : GNode) (r : RNode) =>
        r.id = n.id ∧
        mget (posMapOf [⟨"N1", [("extra", JVal.str "keep")], some 100, 5⟩]) n.id
          = some (r.px, r.py) ∧
        (∀ v, mget [("N1", (⟨false, "bad"⟩ : VRes))] n.id = some v →
          mget r.data "isValid" = some (JVal.bool v.isValid) ∧
          mget r.data "critique" = some (JVal.str v.critique)) ∧
        (∀ k, k ≠ "isValid" → k ≠ "critique" → k ≠ "label" →
          mget r.data k = mget (n.data.getD []) k) ∧
        (mget [("N1", (⟨false, "bad"⟩ : VRes))] n.id = none → ∀ k, k ≠ "label" →
          mget r.data k = mget (n.data.getD []) k))
        [⟨"N1", "L1", some [("extra", JVal.str "keep")]⟩]
        (syncStep [⟨"N1", [("extra", JVal.str "keep")], some 100, 5⟩]
          ⟨handleValidateMerge [⟨"N1", "L1", some [("extra", JVal.str "keep")]⟩]
            [("N1", ⟨false, "bad"⟩)], []⟩).1)) :=
  ⟨by decide, by decide,
    claim_C4_theorem [⟨"N1", [("extra", JVal.str "keep")], some 100, 5⟩]
      [⟨"N1", "L1", some [("extra", JVal.str "keep")]⟩] []
      [("N1", ⟨false, "bad"⟩)] (by decide) (by decide)⟩

/-- Splitting a sum over a pointwise sum of functions. -/
theorem sum_map_split (l : List String) (f g : String → Nat) :
    (l.map (fun s => f s + g s)).sum = (l.map f).sum + (l.map g).sum := by
  induction l with
  | nil => rfl
  | cons x rest ih =>
    simp only [List.map_cons, List.sum_cons, ih]
    omega

/-- A sum of zeros is zero. -/
theorem sum_map_zero (l : List String) (f : String → Nat)
    (h : ∀ s ∈ l, f s = 0) : (l.map f).sum = 0 := by
  induction l with
  | nil => rfl
  | cons x rest ih =>
    simp only [List.map_cons, List.sum_cons,
      h x (by simp), ih (fun s hs => h s (by simp [hs]))]

/-- Summing the indicator of one element of a duplicate-free list. -/
theorem sum_map_indicator (l : List String) (a : String) (hnd : l.Nodup) (ha : a ∈ l) :
    (l.map (fun s => if s = a then 1 else 0)).sum = 1 := by
  induction l with
  | nil => simp at ha
  | cons x rest ih =>
    rw [List.nodup_cons] at hnd
    rcases List.mem_cons.mp ha with h | hmem
    · simp only [List.map_cons, List.sum_cons, if_pos h.symm]
      have hz : (rest.map (fun s => if s = a then 1 else 0)).sum = 0 := by
        apply sum_map_zero
        intro s hs
        rw [if_neg]
        intro hsa
        rw [hsa, h] at hs
        exact hnd.1 hs
      rw [hz]
    · have hxa : ¬ x = a := by
        intro hh
        rw [hh] at hnd
        exact hnd.1 hmem
      simp only [List.map_cons, List.sum_cons, if_neg hxa]
      rw [ih hnd.2 hmem]

/-- The filtered sum never exceeds the full sum. -/
theorem sum_filter_le (l : List String) (p : String → Bool) (f : String → Nat) :
    ((l.filter p).map f).sum ≤ (l.map f).sum := by
  induction l with
  | nil => simp
  | cons x rest ih =>
    rw [List.filter_cons]
    by_cases hp : p x = true
    · rw [if_pos hp]
      simp only [List.map_cons, List.sum_cons]
      omega
    · rw [if_neg hp]
      simp only [List.map_cons, List.sum_cons]
      omega

/-- Elements the filter drops contribute nothing, so the filtered sum is
the full sum. -/
theorem sum_filter_eq_full (l : List String) (p : String → Bool) (f : String → Nat)
    (h : ∀ s ∈ l, p s = false → f s = 0) :
    ((l.filter p).map f).sum = (l.map f).sum := by
  induction l with
  | nil => rfl
  | cons x rest ih =>
    rw [List.filter_cons]
    by_cases hp : p x = true
    · rw [if_pos hp]
      simp only [List.map_cons, List.sum_cons]
      rw [ih (fun s hs hps => h s (by simp [hs]) hps)]
    · rw [if_neg hp]
      have hfx : f x = 0 := h x (by simp) (by revert hp; cases p x <;> simp)
      simp only [List.map_cons, List.sum_cons, hfx]
      rw [ih (fun s hs hps => h s (by simp [hs]) hps)]
      omega

/-- The filtered sum plus one dropped element is at most the full sum. -/
theorem sum_filter_le_one (l : List String) (p : String → Bool) (f : String → Nat)
    (a : String) (hnd : l.Nodup) (ha : a ∈ l) (hpa : p a = false) :
    ((l.filter p).map f).sum + f a ≤ (l.map f).sum := by
  induction l with
  | nil => simp at ha
  | cons x rest ih =>
    rw [List.nodup_cons] at hnd
    rw [List.filter_cons]
    rcases List.mem_cons.mp ha with hax | hamem
    · subst hax
      rw [if_neg (by simp [hpa])]
      simp only [List.map_cons, List.sum_cons]
      have hle := sum_filter_le rest p f
      omega
    · by_cases hp : p x = true
      · rw [if_pos hp]
        simp only [List.map_cons, List.sum_cons]
        have := ih hnd.2 hamem
        omega
      · rw [if_neg hp]
        simp only [List.map_cons, List.sum_cons]
        have := ih hnd.2 hamem
        omega

/-- The filtered sum plus two distinct dropped elements is at most the
full sum. -/
theorem sum_filter_le_two (l : List String) (p : String → Bool) (f : String → Nat)
    (a b : String) (hnd : l.Nodup) (ha : a ∈ l) (hb : b ∈ l) (hab : a ≠ b)
    (hpa : p a = false) (hpb : p b = false) :
    ((l.filter p).map f).sum + f a + f b ≤ (l.map f).sum := by
  induction l with
  | nil => simp at ha
  | cons x rest ih =>
    rw [List.nodup_cons] at hnd
    rw [List.filter_cons]
    rcases List.mem_cons.mp ha with hax | hamem
    · have hbmem : b ∈ rest := by
        rcases List.mem_cons.mp hb with hbx | hbm
        · exact absurd (hax.trans hbx.symm) hab
        · exact hbm
      subst hax
      rw [if_neg (by simp [hpa])]
      simp only [List.map_cons, List.sum_cons]
      have := sum_filter_le_one rest p f b hnd.2 hbmem hpb
      omega
    · rcases List.mem_cons.mp hb with hbx | hbmem
      · subst hbx
        rw [if_neg (by simp [hpb])]
        simp only [List.map_cons, List.sum_cons]
        have := sum_filter_le_one rest p f a hnd.2 hamem hpa
        omega
      · by_cases hp : p x = true
        · rw [if_pos hp]
          simp only [List.map_cons, List.sum_cons]
          have := ih hnd.2 hamem hbmem
          omega
        · rw [if_neg hp]
          simp only [List.map_cons, List.sum_cons]
          have := ih hnd.2 hamem hbmem
          omega

/-- Enlarging the processed set by exactly one element a adds exactly its
contribution to the filtered sum. -/
theorem sum_filter_insert (l : List String) (p q : String → Bool) (f : String → Nat)
    (a : String) (hnd : l.Nodup) (ha : a ∈ l) (hpa : p a = false)
    (hq : ∀ s ∈ l, q s = true ↔ (p s = true ∨ s = a)) :
    ((l.filter q).map f).sum = ((l.filter p).map f).sum + f a := by
  induction l with
  | nil => simp at ha
  | cons x rest ih =>
    rw [List.nodup_cons] at hnd
    rw [List.filter_cons, List.filter_cons]
    rcases List.mem_cons.mp ha with hax | hamem
    · subst hax
      have hqx : q a = true := (hq a (by simp)).mpr (Or.inr rfl)
      rw [if_pos hqx, if_neg (by simp [hpa])]
      simp only [List.map_cons, List.sum_cons]
      have hrest : rest.filter q = rest.filter p := by
        apply List.filter_congr
        intro s hs
        have hsa : ¬ s = a := by
          intro hh
          rw [hh] at hs
          exact hnd.1 hs
        have hiff := hq s (by simp [hs])
        cases hqs : q s with
        | true =>
          rcases hiff.mp hqs with hps | hsa2
          · exact hps.symm
          · exact absurd hsa2 hsa
        | false =>
          cases hps : p s with
          | true => exact absurd (hiff.mpr (Or.inl hps)) (by rw [hqs]; simp)
          | false => rfl
      rw [hrest]
      omega
    · have hxa : ¬ x = a := by
        intro hh
        rw [hh] at hnd
        exact hnd.1 hamem
      have hqp : q x = p x := by
        have hiff := hq x (by simp)
        cases hqs : q x with
        | true =>
          rcases hiff.mp hqs with hps | hsa2
          · exact hps.symm
          · exact absurd hsa2 hxa
        | false =>
          cases hps : p x with
          | true => exact absurd (hiff.mpr (Or.inl hps)) (by rw [hqs]; simp)
          | false => rfl
      rw [hqp]
      by_cases hp : p x = true
      · rw [if_pos hp, if_pos hp]
        simp only [List.map_cons, List.sum_cons]
        rw [ih hnd.2 hamem (fun s hs => hq s (by simp [hs]))]
        omega
      · rw [if_neg hp, if_neg hp]
        exact ih hnd.2 hamem (fun s hs => hq s (by simp [hs]))

/-- The incoming-edge count is nonzero exactly when some edge targets t. -/
theorem edgeCount_ne_zero (edges : List REdge) (t : String) :
    edgeCount edges t ≠ 0 ↔ ∃ e ∈ edges, e.target = t := by
  unfold edgeCount
  constructor
  · intro h
    have hne : edges.filter (fun e => e.target == t) ≠ [] := by
      intro hh
      rw [hh] at h
      exact h rfl
    obtain ⟨e, he⟩ := List.exists_mem_of_ne_nil _ hne
    exact ⟨e, (List.mem_filter.mp he).1, beq_iff_eq.mp (List.mem_filter.mp he).2⟩
  · rintro ⟨e, he, ht⟩
    have hmem : e ∈ edges.filter (fun e => e.target == t) :=
      List.mem_filter.mpr ⟨he, by simp [ht]⟩
    intro h0
    rw [List.length_eq_zero] at h0
    rw [h0] at hmem
    simp at hmem

/-- occ through the adjacency characterization. -/
theorem occ_buildAdj (nodes : List RNode) (edges : List REdge) (s t : String) :
    occ (buildAdj nodes edges) s t =
      if s ∈ nodes.map (fun n => n.id) then (srcTargets edges s).count t else 0 := by
  unfold occ
  rw [buildAdj_mget]
  by_cases h : s ∈ nodes.map (fun n => n.id) <;> simp [h]

/-- An edge contributes to its source's target list. -/
theorem srcTargets_count_pos (edges : List REdge) (e : REdge) (he : e ∈ edges) :
    1 ≤ (srcTargets edges e.source).count e.target := by
  have hmem : e.target ∈ srcTargets edges e.source := by
    unfold srcTargets
    apply List.mem_map_of_mem (fun x : REdge => x.target)
    rw [List.mem_filter]
    refine ⟨he, ?_⟩
    simp
  exact List.count_pos_iff.mpr hmem

/-- A nonzero count in a target list comes from an actual edge. -/
theorem srcTargets_count_mem (edges : List REdge) (s t : String)
    (h : (srcTargets edges s).count t ≠ 0) : (⟨s, t⟩ : REdge) ∈ edges := by
  have hmem : t ∈ srcTargets edges s := List.count_pos_iff.mp (by omega)
  unfold srcTargets at hmem
  simp only [List.mem_map, List.mem_filter, beq_iff_eq] at hmem
  obtain ⟨e, ⟨he, hs⟩, ht⟩ := hmem
  have : e = (⟨s, t⟩ : REdge) := by
    cases e
    simp only at hs ht
    rw [hs, ht]
  rw [← this]
  exact he

/-- Summing, over the duplicate-free node ids, the per-source counts of
edges into t gives the total number of edges into t, provided every edge
into t has its source among the ids. -/
theorem sum_srcTargets_count (ids : List String) (edges : List REdge) (t : String)
    (hnd : ids.Nodup) (hval : ∀ e ∈ edges, e.target = t → e.source ∈ ids) :
    (ids.map (fun s => (srcTargets edges s).count t)).sum = edgeCount edges t := by
  induction edges with
  | nil =>
    rw [sum_map_zero]
    · rfl
    · intro s _
      simp [srcTargets]
  | cons e rest ih =>
    rw [edgeCount_cons]
    by_cases ht : e.target = t
    · rw [if_pos ht]
      have hmap : ids.map (fun s => (srcTargets (e :: rest) s).count t)
          = ids.map (fun s => (srcTargets rest s).count t + if s = e.source then 1 else 0) := by
        apply List.map_congr_left
        intro s _
        rw [srcTargets_cons]
        by_cases hse : e.source = s
        · rw [if_pos hse, if_pos hse.symm, List.count_cons]
          simp [ht]
        · rw [if_neg hse, if_neg (fun hh => hse hh.symm)]
          simp
      rw [hmap, sum_map_split,
        sum_map_indicator ids e.source hnd (hval e (by simp) ht),
        ih (fun e2 he2 ht2 => hval e2 (by simp [he2]) ht2)]
    · rw [if_neg ht]
      have hmap : ids.map (fun s => (srcTargets (e :: rest) s).count t)
          = ids.map (fun s => (srcTargets rest s).count t) := by
        apply List.map_congr_left
        intro s _
        rw [srcTargets_cons]
        by_cases hse : e.source = s
        · rw [if_pos hse, List.count_cons]
          simp [ht]
        · rw [if_neg hse]
      rw [hmap, ih (fun e2 he2 ht2 => hval e2 (by simp [he2]) ht2)]

/-- The ambient facts hold for the maps the layout builds, on inputs with
duplicate-free node ids and valid edge endpoints. -/
theorem layAmbient_holds (nodes : List RNode) (edges : List REdge)
    (hnd : (nodes.map (fun n => n.id)).Nodup)
    (hval : ∀ e ∈ edges, e.source ∈ nodes.map (fun n => n.id) ∧
      e.target ∈ nodes.map (fun n => n.id)) :
    LayAmbient (buildAdj nodes edges) (buildInDeg nodes edges)
      (nodes.map (fun n => n.id)) edges := by
  refine ⟨hnd, ?_, ?_, ?_, ?_, ?_, ?_⟩
  · intro t
    rw [buildInDeg_mget]
    by_cases h : t ∈ nodes.map (fun n => n.id) ∨ edgeCount edges t ≠ 0
    · rw [if_pos h]
      constructor
      · intro _
        rcases h with h | h
        · exact h
        · obtain ⟨e, he, ht⟩ := (edgeCount_ne_zero edges t).mp h
          exact ht ▸ (hval e he).2
      · intro _
        simp
    · rw [if_neg h]
      push_neg at h
      constructor
      · intro hh
        simp at hh
      · intro hh
        exact absurd hh h.1
  · intro t v hv
    rw [buildInDeg_mget] at hv
    by_cases h : t ∈ nodes.map (fun n => n.id) ∨ edgeCount edges t ≠ 0
    · rw [if_pos h] at hv
      have hval2 : v = (edgeCount edges t : Int) := by injection hv.symm
      rw [hval2]
      congr 1
      have hmap : (nodes.map (fun n => n.id)).map
            (fun s => occ (buildAdj nodes edges) s t)
          = (nodes.map (fun n => n.id)).map (fun s => (srcTargets edges s).count t) := by
        apply List.map_congr_left
        intro s hs
        rw [occ_buildAdj, if_pos hs]
      rw [hmap, sum_srcTargets_count _ _ _ hnd (fun e he _ => (hval e he).1)]
    · rw [if_neg h] at hv
      exact absurd hv (by simp)
  · intro s hs
    rw [buildAdj_mget, if_neg hs]
  · intro e he
    rw [occ_buildAdj, if_pos (hval e he).1]
    exact srcTargets_count_pos edges e he
  · intro s t hocc
    rw [occ_buildAdj] at hocc
    by_cases hs : s ∈ nodes.map (fun n => n.id)
    · rw [if_pos hs] at hocc
      have hmem : (⟨s, t⟩ : REdge) ∈ edges := srcTargets_count_mem edges s t hocc
      rw [buildInDeg_mget, if_pos]
      · simp
      · right
        rw [edgeCount_ne_zero]
        exact ⟨⟨s, t⟩, hmem, rfl⟩
    · rw [if_neg hs] at hocc
      exact absurd rfl hocc
  · intro s t hocc
    rw [occ_buildAdj] at hocc
    by_cases hs : s ∈ nodes.map (fun n => n.id)
    · rw [if_pos hs] at hocc
      exact srcTargets_count_mem edges s t hocc
    · rw [if_neg hs] at hocc
      exact absurd rfl hocc

/-- A member's value is at most the sum over the list. -/
theorem le_sum_map (l : List String) (f : String → Nat) (a : String) (ha : a ∈ l) :
    f a ≤ (l.map f).sum := by
  induction l with
  | nil => simp at ha
  | cons x rest ih =>
    simp only [List.map_cons, List.sum_cons]
    rcases List.mem_cons.mp ha with hax | hamem
    · rw [hax]
      omega
    · have := ih hamem
      omega

/-- Sources of edges are node ids (via the ambient facts). -/
theorem layAmbient_src_ids {adj : List (String × List String)}
    {indeg0 : List (String × Int)} {ids : List String} {edges0 : List REdge}
    (amb : LayAmbient adj indeg0 ids edges0) :
    ∀ e ∈ edges0, e.source ∈ ids := by
  intro e he
  by_contra hs
  have hnone := amb.occDom e.source hs
  have h1 := amb.occEdge e he
  unfold occ at h1
  rw [hnone] at h1
  simp at h1

/-- The loop invariant holds for the seeded initial state. -/
theorem layInv_init (nodes : List RNode) (edges : List REdge)
    (amb : LayAmbient (buildAdj nodes edges) (buildInDeg nodes edges)
      (nodes.map (fun n => n.id)) edges) :
    LayInv (buildAdj nodes edges) (buildInDeg nodes edges)
      (nodes.map (fun n => n.id)) edges (initState nodes edges) := by
  have hlayers : ∀ t, mget (initState nodes edges).layers t =
      if t ∈ (nodes.filter (fun n => mget (buildInDeg nodes edges) n.id == some 0)).map
        (fun n => n.id) then some 0 else none := by
    intro t
    unfold initState
    dsimp only
    rw [mget_fold_const]
    rfl
  have hqueue : (initState nodes edges).queue =
      (nodes.filter (fun n => mget (buildInDeg nodes edges) n.id == some 0)).map
        (fun n => n.id) := rfl
  have hindeg : (initState nodes edges).indeg = buildInDeg nodes edges := rfl
  have hnoproc : ∀ s, isProcessed (initState nodes edges) s = false := by
    intro s
    unfold isProcessed
    cases hs : (mget (initState nodes edges).layers s).isSome with
    | false => simp
    | true =>
      have hmem : s ∈ (initState nodes edges).queue := by
        rw [hlayers s] at hs
        by_cases hm : s ∈ (nodes.filter (fun n =>
            mget (buildInDeg nodes edges) n.id == some 0)).map (fun n => n.id)
        · rw [hqueue]
          exact hm
        · rw [if_neg hm] at hs
          simp at hs
      simp [hmem]
  have hproc0 : ∀ t, procCount (buildAdj nodes edges) (nodes.map (fun n => n.id))
      (initState nodes edges) t = 0 := by
    intro t
    unfold procCount
    have hfil : (nodes.map (fun n => n.id)).filter
        (fun s => isProcessed (initState nodes edges) s) = [] :=
      List.filter_eq_nil_iff.mpr (fun a _ => by rw [hnoproc a]; simp)
    rw [hfil]
    rfl
  refine ⟨?_, ?_, ?_, ?_, ?_, ?_, ?_, ?_, ?_⟩
  · intro t v hv
    rw [hproc0 t, hindeg]
    simpa using hv
  · intro t h
    rw [hindeg]
    exact h
  · intro t ht
    rw [hlayers t] at ht
    by_cases hm : t ∈ (nodes.filter (fun n =>
        mget (buildInDeg nodes edges) n.id == some 0)).map (fun n => n.id)
    · simp only [List.mem_map, List.mem_filter] at hm
      obtain ⟨n, ⟨hn, _⟩, hid⟩ := hm
      exact hid ▸ List.mem_map_of_mem (fun m : RNode => m.id) hn
    · rw [if_neg hm] at ht
      simp at ht
  · intro t ht
    rw [hqueue] at ht
    rw [hlayers t, if_pos ht]
    rfl
  · rw [hqueue]
    exact amb.nodupIds.sublist (List.Sublist.map (fun n => n.id) (List.filter_sublist nodes))
  · intro t h0
    rw [hindeg] at h0
    have h0' := h0
    rw [buildInDeg_mget] at h0'
    by_cases hc : t ∈ nodes.map (fun n => n.id) ∨ edgeCount edges t ≠ 0
    · rw [if_pos hc] at h0'
      have hcnt : (edgeCount edges t : Int) = 0 := by
        injection h0' with h
      have htids : t ∈ nodes.map (fun n => n.id) := by
        rcases hc with hc | hc
        · exact hc
        · exact absurd (by exact_mod_cast hcnt) hc
      simp only [List.mem_map] at htids
      obtain ⟨n, hn, hid⟩ := htids
      rw [hlayers t, if_pos]
      · rfl
      · rw [← hid]
        refine List.mem_map_of_mem (fun m : RNode => m.id) ?_
        rw [List.mem_filter]
        exact ⟨hn, by simp [hid, h0]⟩
    · rw [if_neg hc] at h0'
      exact absurd h0' (by simp)
  · intro t ht
    rw [hlayers t] at ht
    by_cases hm : t ∈ (nodes.filter (fun n =>
        mget (buildInDeg nodes edges) n.id == some 0)).map (fun n => n.id)
    · simp only [List.mem_map, List.mem_filter] at hm
      obtain ⟨n, ⟨hn, hcond⟩, hid⟩ := hm
      rw [hindeg, ← hid]
      exact beq_iff_eq.mp hcond
    · rw [if_neg hm] at ht
      simp at ht
  · intro e he lt hlt
    exfalso
    rw [hlayers e.target] at hlt
    by_cases hm : e.target ∈ (nodes.filter (fun n =>
        mget (buildInDeg nodes edges) n.id == some 0)).map (fun n => n.id)
    · simp only [List.mem_map, List.mem_filter] at hm
      obtain ⟨n, ⟨hn, hcond⟩, hid⟩ := hm
      have hzero : mget (buildInDeg nodes edges) e.target = some 0 :=
        hid ▸ beq_iff_eq.mp hcond
      have hv := amb.indegVal e.target 0 hzero
      have hle : occ (buildAdj nodes edges) e.source e.target ≤
          ((nodes.map (fun n => n.id)).map
            (fun s => occ (buildAdj nodes edges) s e.target)).sum :=
        le_sum_map (nodes.map (fun n => n.id))
          (fun s => occ (buildAdj nodes edges) s e.target) e.source
          (layAmbient_src_ids amb e he)
      have hocc := amb.occEdge e he
      omega
    · rw [if_neg hm] at hlt
      exact absurd hlt (by simp)
  · refine ⟨0, ⟨(nodes.filter (fun n =>
      mget (buildInDeg nodes edges) n.id == some 0)).map (fun n => n.id), [], ?_, ?_, ?_⟩, ?_⟩
    · rw [hqueue, List.append_nil]
    · intro x hx
      rw [hlayers x, if_pos hx]
    · intro x hx
      simp at hx
    · intro q hq
      rw [hnoproc q] at hq
      simp at hq

/-- The loop invariant is preserved by one iteration of the BFS loop. -/
theorem layInv_step (adj : List (String × List String))
    (indeg0 : List (String × Int)) (ids : List String) (edges0 : List REdge)
    (amb : LayAmbient adj indeg0 ids edges0)
    (st : BfsState) (u : String) (rest : List String)
    (hq : st.queue = u :: rest)
    (inv : LayInv adj indeg0 ids edges0 st) :
    LayInv adj indeg0 ids edges0 (bfsStep adj st u rest) := by
  obtain ⟨acc, accNone, asgIds, queueAsg, queueNodup, zeroAsg, asgZero, edgeLt, zone⟩ := inv
  have huq : u ∈ st.queue := by rw [hq]; simp
  have huasg : (mget st.layers u).isSome = true := queueAsg u huq
  obtain ⟨Lu, hLu⟩ := Option.isSome_iff_exists.mp huasg
  have hLgetD : (mget st.layers u).getD 0 = Lu := by rw [hLu]; rfl
  have huids : u ∈ ids := asgIds u huasg
  have hunodup : u ∉ rest := by
    rw [hq] at queueNodup
    exact (List.nodup_cons.mp queueNodup).1
  have hrestnd : rest.Nodup := by
    rw [hq] at queueNodup
    exact (List.nodup_cons.mp queueNodup).2
  have hupnot : isProcessed st u = false := by
    unfold isProcessed
    simp [huq]
  have hocc_count : ∀ t, occ adj u t = ((mget adj u).getD []).count t := fun t => rfl
  have hhits_unasg : ∀ c ∈ hits st.indeg ((mget adj u).getD []),
      mget st.layers c = none := by
    intro c hc
    rw [hits_mem] at hc
    cases hcl : mget st.layers c with
    | none => rfl
    | some L =>
      have h0 : mget st.indeg c = some 0 := asgZero c (by rw [hcl]; rfl)
      rw [h0] at hc
      simp only [Option.getD_some] at hc
      omega
  have hhits_ids : ∀ c ∈ hits st.indeg ((mget adj u).getD []), c ∈ ids := by
    intro c hc
    rw [hits_mem] at hc
    have hsome : (mget st.indeg c).isSome = true := by
      cases hcl : mget st.indeg c with
      | none =>
        rw [hcl] at hc
        simp only [Option.getD_none] at hc
        omega
      | some v => rfl
    have h0 : (mget indeg0 c).isSome = true := by
      cases h00 : mget indeg0 c with
      | some v => rfl
      | none =>
        rw [accNone c h00] at hsome
        simp at hsome
    exact (amb.indegDom c).mp h0
  have hhits_nd : (hits st.indeg ((mget adj u).getD [])).Nodup :=
    hits_nodup ((mget adj u).getD []) st.indeg
  have hlay' : ∀ t, mget (bfsStep adj st u rest).layers t =
      if t ∈ hits st.indeg ((mget adj u).getD []) then some (Lu + 1)
      else mget st.layers t := by
    intro t
    rw [bfsStep_layers, mget_fold_keys, hLgetD]
  have hqueue' : (bfsStep adj st u rest).queue =
      rest ++ hits st.indeg ((mget adj u).getD []) := bfsStep_queue adj st u rest
  have hindeg' : ∀ t, mget (bfsStep adj st u rest).indeg t =
      if ((mget adj u).getD []).count t = 0 then mget st.indeg t
      else some ((mget st.indeg t).getD 0 - ((mget adj u).getD []).count t) := by
    intro t
    rw [bfsStep_indeg, decAll_mget]
  have hproc' : ∀ s, isProcessed (bfsStep adj st u rest) s = true ↔
      (isProcessed st s = true ∨ s = u) := by
    intro s
    constructor
    · intro h
      unfold isProcessed at h
      rw [Bool.and_eq_true] at h
      obtain ⟨h1, h2⟩ := h
      have hnq : s ∉ (bfsStep adj st u rest).queue := by simpa using h2
      rw [hqueue'] at hnq
      rw [hlay' s] at h1
      by_cases hsh : s ∈ hits st.indeg ((mget adj u).getD [])
      · exact absurd (List.mem_append.mpr (Or.inr hsh)) hnq
      · rw [if_neg hsh] at h1
        by_cases hsu : s = u
        · exact Or.inr hsu
        · left
          unfold isProcessed
          rw [Bool.and_eq_true]
          refine ⟨h1, ?_⟩
          simp only [Bool.not_eq_true', decide_eq_false_iff_not]
          rw [hq]
          intro hmem
          rcases List.mem_cons.mp hmem with h | h
          · exact hsu h
          · exact hnq (List.mem_append.mpr (Or.inl h))
    · intro h
      unfold isProcessed
      rw [Bool.and_eq_true]
      rcases h with h | hsu
      · unfold isProcessed at h
        rw [Bool.and_eq_true] at h
        obtain ⟨h1, h2⟩ := h
        have hnq : s ∉ st.queue := by simpa using h2
        have hsh : s ∉ hits st.indeg ((mget adj u).getD []) := by
          intro hmem
          rw [hhits_unasg s hmem] at h1
          simp at h1
        constructor
        · rw [hlay' s, if_neg hsh]
          exact h1
        · simp only [Bool.not_eq_true', decide_eq_false_iff_not]
          rw [hqueue']
          intro hmem
          rcases List.mem_append.mp hmem with h | h
          · exact hnq (by rw [hq]; exact List.mem_cons_of_mem u h)
          · exact hsh h
      · rw [hsu]
        have hsh : u ∉ hits st.indeg ((mget adj u).getD []) := by
          intro hmem
          rw [hhits_unasg u hmem] at huasg
          simp at huasg
        constructor
        · rw [hlay' u, if_neg hsh]
          exact huasg
        · simp only [Bool.not_eq_true', decide_eq_false_iff_not]
          rw [hqueue']
          intro hmem
          rcases List.mem_append.mp hmem with h | h
          · exact hunodup h
          · exact hsh h
  have hprocCount' : ∀ t, procCount adj ids (bfsStep adj st u rest) t =
      procCount adj ids st t + occ adj u t := by
    intro t
    unfold procCount
    exact sum_filter_insert ids (fun s => isProcessed st s)
      (fun s => isProcessed (bfsStep adj st u rest) s)
      (fun s => occ adj s t) u amb.nodupIds huids hupnot
      (fun s _ => hproc' s)
  have hbound : ∀ t v, mget indeg0 t = some v →
      (procCount adj ids st t : Int) + occ adj u t ≤ v := by
    intro t v hv
    have hsum := amb.indegVal t v hv
    have hle2 : procCount adj ids st t + occ adj u t ≤
        (ids.map (fun s => occ adj s t)).sum := by
      have hfl := sum_filter_le_one ids (fun s => isProcessed st s)
        (fun s => occ adj s t) u amb.nodupIds huids hupnot
      simpa [procCount] using hfl
    omega
  have hhit_val : ∀ c ∈ hits st.indeg ((mget adj u).getD []), ∃ v0,
      mget indeg0 c = some v0 ∧
      (mget st.indeg c).getD 0 = v0 - procCount adj ids st c ∧
      1 ≤ (mget st.indeg c).getD 0 ∧
      (mget st.indeg c).getD 0 ≤ (occ adj u c : Int) := by
    intro c hc
    have hcm := hc
    rw [hits_mem] at hcm
    obtain ⟨h1, h2⟩ := hcm
    have hsome0 : (mget indeg0 c).isSome = true := by
      cases h00 : mget indeg0 c with
      | some v => rfl
      | none =>
        have hn := accNone c h00
        rw [hn] at h1
        simp only [Option.getD_none] at h1
        omega
    obtain ⟨v0, hv0⟩ := Option.isSome_iff_exists.mp hsome0
    have hacc := acc c v0 hv0
    refine ⟨v0, hv0, ?_, h1, ?_⟩
    · rw [hacc]
      rfl
    · rw [hocc_count c]
      exact h2
  have hhit_exact : ∀ c ∈ hits st.indeg ((mget adj u).getD []),
      (mget st.indeg c).getD 0 = (occ adj u c : Int) := by
    intro c hc
    obtain ⟨v0, hv0, heq, h1, h2⟩ := hhit_val c hc
    have hb := hbound c v0 hv0
    omega
  refine ⟨?_, ?_, ?_, ?_, ?_, ?_, ?_, ?_, ?_⟩
  · intro t v hv
    rw [hindeg' t, hprocCount' t]
    by_cases h0 : ((mget adj u).getD []).count t = 0
    · rw [if_pos h0]
      rw [acc t v hv]
      have hco : occ adj u t = 0 := by rw [hocc_count t]; exact h0
      rw [hco]
      congr 1
    · rw [if_neg h0]
      rw [acc t v hv]
      simp only [Option.getD_some]
      have hco : occ adj u t = ((mget adj u).getD []).count t := hocc_count t
      congr 1
      rw [← hco]
      push_cast
      omega
  · intro t h0
    rw [hindeg' t]
    have hocc0 : occ adj u t = 0 := by
      by_contra hne
      have hsome := amb.occTarget u t hne
      rw [h0] at hsome
      simp at hsome
    rw [hocc_count t] at hocc0
    rw [if_pos hocc0]
    exact accNone t h0
  · intro t ht
    rw [hlay' t] at ht
    by_cases hth : t ∈ hits st.indeg ((mget adj u).getD [])
    · exact hhits_ids t hth
    · rw [if_neg hth] at ht
      exact asgIds t ht
  · intro t ht
    rw [hqueue'] at ht
    rw [hlay' t]
    by_cases hth : t ∈ hits st.indeg ((mget adj u).getD [])
    · rw [if_pos hth]
      rfl
    · rw [if_neg hth]
      rcases List.mem_append.mp ht with h | h
      · exact queueAsg t (by rw [hq]; exact List.mem_cons_of_mem u h)
      · exact absurd h hth
  · rw [hqueue']
    rw [List.nodup_append]
    refine ⟨hrestnd, hhits_nd, ?_⟩
    intro a ha hab
    have h1 : (mget st.layers a).isSome = true :=
      queueAsg a (by rw [hq]; exact List.mem_cons_of_mem u ha)
    rw [hhits_unasg a hab] at h1
    simp at h1
  · intro t h0
    rw [hindeg' t] at h0
    rw [hlay' t]
    by_cases hc0 : ((mget adj u).getD []).count t = 0
    · rw [if_pos hc0] at h0
      by_cases hth : t ∈ hits st.indeg ((mget adj u).getD [])
      · rw [if_pos hth]
        rfl
      · rw [if_neg hth]
        exact zeroAsg t h0
    · rw [if_neg hc0] at h0
      have hval : (mget st.indeg t).getD 0 - (((mget adj u).getD []).count t : Int) = 0 := by
        injection h0 with h
      have hth : t ∈ hits st.indeg ((mget adj u).getD []) := by
        rw [hits_mem]
        constructor
        · omega
        · omega
      rw [if_pos hth]
      rfl
  · intro t ht
    rw [hlay' t] at ht
    rw [hindeg' t]
    by_cases hth : t ∈ hits st.indeg ((mget adj u).getD [])
    · have hx := hhit_exact t hth
      rw [hocc_count t] at hx
      have hhm := hth
      rw [hits_mem] at hhm
      have hcnt : ((mget adj u).getD []).count t ≠ 0 := by omega
      rw [if_neg hcnt]
      congr 1
      omega
    · rw [if_neg hth] at ht
      have h00 : mget st.indeg t = some 0 := asgZero t ht
      have hv0some : (mget indeg0 t).isSome = true := by
        cases hi : mget indeg0 t with
        | some v => rfl
        | none =>
          rw [accNone t hi] at h00
          exact absurd h00 (by simp)
      obtain ⟨v0, hv0⟩ := Option.isSome_iff_exists.mp hv0some
      have hacc := acc t v0 hv0
      have hpc : v0 - (procCount adj ids st t : Int) = 0 := by
        rw [hacc] at h00
        injection h00 with h
      have hb := hbound t v0 hv0
      have hco : occ adj u t = ((mget adj u).getD []).count t := hocc_count t
      have hcnt0 : ((mget adj u).getD []).count t = 0 := by omega
      rw [if_pos hcnt0]
      exact h00
  · intro e he lt hlt
    rw [hlay' e.target] at hlt
    by_cases hth : e.target ∈ hits st.indeg ((mget adj u).getD [])
    · rw [if_pos hth] at hlt
      have hlt2 : Lu + 1 = lt := by injection hlt
      obtain ⟨v0, hv0, heq, h1, h2⟩ := hhit_val e.target hth
      have hsrc_ids : e.source ∈ ids := layAmbient_src_ids amb e he
      have hsrc : isProcessed st e.source = true ∨ e.source = u := by
        by_contra hcon
        push_neg at hcon
        obtain ⟨hnp, hnu⟩ := hcon
        have hnp2 : isProcessed st e.source = false := by
          cases hps : isProcessed st e.source with
          | false => rfl
          | true => exact absurd hps hnp
        have hb2 := sum_filter_le_two ids (fun s => isProcessed st s)
          (fun s => occ adj s e.target) e.source u amb.nodupIds hsrc_ids huids
          hnu hnp2 hupnot
        have hsum := amb.indegVal e.target v0 hv0
        have hocc_src := amb.occEdge e he
        have hb3 : procCount adj ids st e.target + occ adj e.source e.target +
            occ adj u e.target ≤ (ids.map (fun s => occ adj s e.target)).sum := by
          simpa [procCount] using hb2
        omega
      have hsrcasg : ∃ ls, mget st.layers e.source = some ls ∧ ls ≤ Lu := by
        rcases hsrc with hp | hu2
        · obtain ⟨L, hzoned, hprocle⟩ := zone
          obtain ⟨lp, hlp, hlpL⟩ := hprocle e.source hp
          obtain ⟨q1, q2, hq12, hq1, hq2⟩ := hzoned
          have hLuL : L ≤ Lu := by
            cases q1 with
            | nil =>
              rw [List.nil_append] at hq12
              have hu2 : u ∈ q2 := by rw [← hq12, hq]; simp
              have hval := hq2 u hu2
              rw [hLu] at hval
              have : Lu = L + 1 := by injection hval
              omega
            | cons x q1' =>
              have hxu : x = u := by
                rw [hq, List.cons_append] at hq12
                injection hq12 with h
                exact h.symm
              have hval := hq1 x (by simp)
              rw [hxu, hLu] at hval
              have : Lu = L := by injection hval
              omega
          exact ⟨lp, hlp, by omega⟩
        · refine ⟨Lu, ?_, le_refl Lu⟩
          rw [hu2]
          exact hLu
      obtain ⟨ls, hls, hlsle⟩ := hsrcasg
      have hsrcnh : e.source ∉ hits st.indeg ((mget adj u).getD []) := by
        intro hm
        rw [hhits_unasg _ hm] at hls
        exact absurd hls (by simp)
      refine ⟨ls, ?_, ?_⟩
      · rw [hlay' e.source, if_neg hsrcnh]
        exact hls
      · omega
    · rw [if_neg hth] at hlt
      obtain ⟨ls, hls, hlsgt⟩ := edgeLt e he lt hlt
      have hsrcnh : e.source ∉ hits st.indeg ((mget adj u).getD []) := by
        intro hm
        rw [hhits_unasg _ hm] at hls
        exact absurd hls (by simp)
      refine ⟨ls, ?_, hlsgt⟩
      rw [hlay' e.source, if_neg hsrcnh]
      exact hls
  · obtain ⟨L, ⟨q1, q2, hq12, hq1, hq2⟩, hprocle⟩ := zone
    have hunh : u ∉ hits st.indeg ((mget adj u).getD []) := by
      intro hm
      rw [hhits_unasg _ hm] at hLu
      exact absurd hLu (by simp)
    cases q1 with
    | nil =>
      rw [List.nil_append] at hq12
      have hq2' : q2 = u :: rest := by rw [← hq12, hq]
      have hLu2 : Lu = L + 1 := by
        have hval := hq2 u (by rw [hq2']; simp)
        rw [hLu] at hval
        injection hval
      refine ⟨L + 1, ⟨rest, hits st.indeg ((mget adj u).getD []), hqueue', ?_, ?_⟩, ?_⟩
      · intro x hx
        have hmem : x ∈ q2 := by rw [hq2']; simp [hx]
        have hx2 := hq2 x hmem
        have hxnh : x ∉ hits st.indeg ((mget adj u).getD []) := by
          intro hm
          rw [hhits_unasg _ hm] at hx2
          exact absurd hx2 (by simp)
        rw [hlay' x, if_neg hxnh]
        exact hx2
      · intro x hx
        rw [hlay' x, if_pos hx, hLu2]
      · intro p hp
        rw [hproc' p] at hp
        rcases hp with hp | hpu
        · obtain ⟨lp, hlp, hlpL⟩ := hprocle p hp
          have hpnh : p ∉ hits st.indeg ((mget adj u).getD []) := by
            intro hm
            rw [hhits_unasg _ hm] at hlp
            exact absurd hlp (by simp)
          refine ⟨lp, ?_, by omega⟩
          rw [hlay' p, if_neg hpnh]
          exact hlp
        · subst hpu
          refine ⟨Lu, ?_, by omega⟩
          rw [hlay' p, if_neg hunh]
          exact hLu
    | cons x q1' =>
      have hxu : x = u := by
        rw [hq, List.cons_append] at hq12
        injection hq12 with h
        exact h.symm
      have hrest2 : q1' ++ q2 = rest := by
        rw [hq, List.cons_append] at hq12
        injection hq12 with h1 h2
        exact h2.symm
      have hLuL : Lu = L := by
        have hval := hq1 x (by simp)
        rw [hxu, hLu] at hval
        injection hval
      refine ⟨L, ⟨q1', q2 ++ hits st.indeg ((mget adj u).getD []), ?_, ?_, ?_⟩, ?_⟩
      · rw [hqueue', ← hrest2, List.append_assoc]
      · intro y hy
        have hy2 := hq1 y (by simp [hy])
        have hynh : y ∉ hits st.indeg ((mget adj u).getD []) := by
          intro hm
          rw [hhits_unasg _ hm] at hy2
          exact absurd hy2 (by simp)
        rw [hlay' y, if_neg hynh]
        exact hy2
      · intro y hy
        rcases List.mem_append.mp hy with h | h
        · have hy2 := hq2 y h
          have hynh : y ∉ hits st.indeg ((mget adj u).getD []) := by
            intro hm
            rw [hhits_unasg _ hm] at hy2
            exact absurd hy2 (by simp)
          rw [hlay' y, if_neg hynh]
          exact hy2
        · rw [hlay' y, if_pos h, hLuL]
      · intro p hp
        rw [hproc' p] at hp
        rcases hp with hp | hpu
        · obtain ⟨lp, hlp, hlpL⟩ := hprocle p hp
          have hpnh : p ∉ hits st.indeg ((mget adj u).getD []) := by
            intro hm
            rw [hhits_unasg _ hm] at hlp
            exact absurd hlp (by simp)
          refine ⟨lp, ?_, hlpL⟩
          rw [hlay' p, if_neg hpnh]
          exact hlp
        · subst hpu
          refine ⟨Lu, ?_, by omega⟩
          rw [hlay' p, if_neg hunh]
          exact hLu

/-- Seeding node ids with value 0 never raises the positive-sum measure. -/
theorem sumPos_seed (nodes : List RNode) :
    ∀ m0, sumPos (nodes.foldl (fun m n => mset m n.id 0) m0) ≤ sumPos m0 := by
  induction nodes with
  | nil => intro m0; simp [List.foldl]
  | cons n rest ih =>
    intro m0
    simp only [List.foldl_cons]
    have h1 : sumPos (mset m0 n.id 0) ≤ sumPos m0 := by
      cases hm : mget m0 n.id with
      | none =>
        rw [sumPos_mset_none m0 n.id 0 hm]
        simp
      | some w =>
        have := sumPos_mset_some m0 n.id 0 w hm
        omega
    exact le_trans (ih (mset m0 n.id 0)) h1

/-- Each edge raises the positive-sum measure by at most one. -/
theorem sumPos_edges (edges : List REdge) :
    ∀ m0, sumPos (edges.foldl
        (fun m e => mset m e.target ((mget m e.target).getD 0 + 1)) m0) ≤
      sumPos m0 + edges.length := by
  induction edges with
  | nil => intro m0; simp [List.foldl]
  | cons e rest ih =>
    intro m0
    simp only [List.foldl_cons, List.length_cons]
    have h1 : sumPos (mset m0 e.target ((mget m0 e.target).getD 0 + 1)) ≤
        sumPos m0 + 1 := by
      cases hm : mget m0 e.target with
      | none =>
        simp only [Option.getD_none]
        rw [sumPos_mset_none m0 e.target (0 + 1) hm]
        omega
      | some w =>
        simp only [Option.getD_some]
        have := sumPos_mset_some m0 e.target (w + 1) w hm
        omega
    have h2 := ih (mset m0 e.target ((mget m0 e.target).getD 0 + 1))
    omega

/-- The fuel nodes.length + edges.length used by layoutBfs always drains
the queue: the while loop terminates on its own. -/
theorem layoutBfs_queue_empty (nodes : List RNode) (edges : List REdge) :
    (layoutBfs nodes edges).queue = [] := by
  unfold layoutBfs
  apply bfsRun_runs_out
  have h1 : sumPos (initState nodes edges).indeg ≤ edges.length := by
    show sumPos (buildInDeg nodes edges) ≤ edges.length
    unfold buildInDeg
    have h2 := sumPos_edges edges (nodes.foldl (fun m n => mset m n.id 0) [])
    have h3 := sumPos_seed nodes []
    have h4 : sumPos ([] : List (String × Int)) = 0 := rfl
    omega
  have h2 : (initState nodes edges).queue.length ≤ nodes.length := by
    show ((nodes.filter (fun n => mget (buildInDeg nodes edges) n.id == some 0)).map
      (fun n => n.id)).length ≤ nodes.length
    rw [List.length_map]
    exact List.length_filter_le _ _
  omega

/-- The loop invariant holds at the state layoutBfs returns. -/
theorem layoutBfs_inv (nodes : List RNode) (edges : List REdge)
    (hnd : (nodes.map (fun n => n.id)).Nodup)
    (hval : ∀ e ∈ edges, e.source ∈ nodes.map (fun n => n.id) ∧
      e.target ∈ nodes.map (fun n => n.id)) :
    LayInv (buildAdj nodes edges) (buildInDeg nodes edges)
      (nodes.map (fun n => n.id)) edges (layoutBfs nodes edges) := by
  have amb := layAmbient_holds nodes edges hnd hval
  unfold layoutBfs
  exact bfsRun_inv (buildAdj nodes edges) _
    (fun st u rest hq h => layInv_step _ _ _ _ amb st u rest hq h)
    (nodes.length + edges.length) (initState nodes edges)
    (layInv_init nodes edges amb)

/-- Under a topological rank function (increasing along every edge),
every node of a duplicate-free graph whose edges all have present
endpoints is assigned a layer by the BFS. -/
theorem layout_assigned_of_rank (nodes : List RNode) (edges : List REdge)
    (hnd : (nodes.map (fun n => n.id)).Nodup)
    (hval : ∀ e ∈ edges, e.source ∈ nodes.map (fun n => n.id) ∧
      e.target ∈ nodes.map (fun n => n.id))
    (rank : String → Nat)
    (hrank : ∀ e ∈ edges, rank e.source < rank e.target) :
    ∀ t ∈ nodes.map (fun n => n.id),
      (mget (layoutBfs nodes edges).layers t).isSome = true := by
  have amb := layAmbient_holds nodes edges hnd hval
  have inv := layoutBfs_inv nodes edges hnd hval
  have hqe := layoutBfs_queue_empty nodes edges
  have hproc : ∀ s, isProcessed (layoutBfs nodes edges) s =
      (mget (layoutBfs nodes edges).layers s).isSome := by
    intro s
    unfold isProcessed
    rw [hqe]
    simp
  have hmain : ∀ k t, t ∈ nodes.map (fun n => n.id) → rank t < k →
      (mget (layoutBfs nodes edges).layers t).isSome = true := by
    intro k
    induction k with
    | zero => intro t ht hk; omega
    | succ k ih =>
      intro t ht hk
      by_contra hna
      have hv0 : (mget (buildInDeg nodes edges) t).isSome = true :=
        (amb.indegDom t).mpr ht
      obtain ⟨v0, hv0e⟩ := Option.isSome_iff_exists.mp hv0
      have hacc := inv.acc t v0 hv0e
      have hfull : procCount (buildAdj nodes edges) (nodes.map (fun n => n.id))
          (layoutBfs nodes edges) t =
          ((nodes.map (fun n => n.id)).map
            (fun s => occ (buildAdj nodes edges) s t)).sum := by
        unfold procCount
        apply sum_filter_eq_full
        intro s hs hps
        have hps2 : isProcessed (layoutBfs nodes edges) s = false := hps
        by_contra hocc
        have hedge := amb.occMem s t hocc
        have hranklt : rank s < rank t := hrank _ hedge
        have hsmem : s ∈ nodes.map (fun n => n.id) := (hval _ hedge).1
        have hsasg := ih s hsmem (by omega)
        rw [hproc s, hsasg] at hps2
        exact absurd hps2 (by simp)
      have hvv := amb.indegVal t v0 hv0e
      have hzero : mget (layoutBfs nodes edges).indeg t = some 0 := by
        rw [hacc]
        congr 1
        rw [hfull]
        omega
      exact hna (inv.zeroAsg t hzero)
  intro t ht
  exact hmain (rank t + 1) t ht (by omega)

/-- C3: on an acyclic input graph (acyclicity witnessed by a rank
function strictly increasing along every edge) whose node ids are
duplicate-free and whose edges all have both endpoints in the node set,
the layer assignment computed by getLayoutedElements gives every edge's
target a strictly greater layer than its source. -/
theorem claim_C3_theorem (nodes : List RNode) (edges : List REdge)
    (hnd : (nodes.map (fun n => n.id)).Nodup)
    (hval : ∀ e ∈ edges, e.source ∈ nodes.map (fun n => n.id) ∧
      e.target ∈ nodes.map (fun n => n.id))
    (rank : String → Nat)
    (hrank : ∀ e ∈ edges, rank e.source < rank e.target) :
    ∀ e ∈ edges, ∃ ls lt, mget (assignLayers nodes edges) e.source = some ls ∧
      mget (assignLayers nodes edges) e.target = some lt ∧ ls < lt := by
  have inv := layoutBfs_inv nodes edges hnd hval
  have hall := layout_assigned_of_rank nodes edges hnd hval rank hrank
  intro e he
  unfold assignLayers
  have htasg := hall e.target ((hval e he).2)
  obtain ⟨lt, hlt⟩ := Option.isSome_iff_exists.mp htasg
  obtain ⟨ls, hls, hlslt⟩ := inv.edgeLt e he lt hlt
  exact ⟨ls, lt, hls, hlt, hlslt⟩

/-- Witness for C3 at a concrete two-node acyclic graph and its edge. -/
theorem claim_C3_witness :
    ∃ ls lt,
      mget (assignLayers [⟨"A", [], none, 0⟩, ⟨"B", [], none, 0⟩]
        [⟨"A", "B"⟩]) (⟨"A", "B"⟩ : REdge).source = some ls ∧
      mget (assignLayers [⟨"A", [], none, 0⟩, ⟨"B", [], none, 0⟩]
        [⟨"A", "B"⟩]) (⟨"A", "B"⟩ : REdge).target = some lt ∧ ls < lt :=
  claim_C3_theorem [⟨"A", [], none, 0⟩, ⟨"B", [], none, 0⟩] [⟨"A", "B"⟩]
    (by decide) (by decide)
    (fun s => if s = "B" then 1 else 0) (by decide)
    ⟨"A", "B"⟩ (by simp)

/-- A node the BFS never assigned keeps no x position after centering:
the JavaScript arithmetic on its undefined layer yields NaN. -/
theorem centerNode_unassigned (layers : List (String × Int))
    (counts : List (Int × Int)) (tw : Option Int) (n : RNode)
    (h : mget layers n.id = none) : (centerNode layers counts tw n).px = none := by
  unfold centerNode
  rw [h]

/-- A prefix of a chain is a chain. -/
theorem chain_prefix {R : String → String → Prop} :
    ∀ (l1 l2 : List String) (a : String),
      List.Chain R a (l1 ++ l2) → List.Chain R a l1 := by
  intro l1
  induction l1 with
  | nil => intro l2 a h; exact List.Chain.nil
  | cons x l1i ih =>
    intro l2 a h
    rw [List.cons_append] at h
    rcases List.chain_cons.mp h with ⟨hax, hrest⟩
    exact List.chain_cons.mpr ⟨hax, ih l2 x hrest⟩

/-- Along a nonempty edge path whose end node is assigned, the start
node is assigned a strictly smaller layer. -/
theorem layer_chain_lt (nodes : List RNode) (edges : List REdge)
    (hnd : (nodes.map (fun n => n.id)).Nodup)
    (hval : ∀ e ∈ edges, e.source ∈ nodes.map (fun n => n.id) ∧
      e.target ∈ nodes.map (fun n => n.id)) :
    ∀ (l : List String) (a b : String),
      List.Chain (fun s t => (⟨s, t⟩ : REdge) ∈ edges) a (l ++ [b]) →
      ∀ L, mget (layoutBfs nodes edges).layers b = some L →
      ∃ La, mget (layoutBfs nodes edges).layers a = some La ∧ La < L := by
  have inv := layoutBfs_inv nodes edges hnd hval
  intro l
  induction l with
  | nil =>
    intro a b h L hL
    rw [List.nil_append] at h
    rcases List.chain_cons.mp h with ⟨hab, _⟩
    obtain ⟨La, hLa, hlt⟩ := inv.edgeLt ⟨a, b⟩ hab L hL
    exact ⟨La, hLa, hlt⟩
  | cons x li ih =>
    intro a b h L hL
    rw [List.cons_append] at h
    rcases List.chain_cons.mp h with ⟨hax, hrest⟩
    obtain ⟨Lx, hLx, hxlt⟩ := ih x b hrest L hL
    obtain ⟨La, hLa, halt⟩ := inv.edgeLt ⟨a, x⟩ hax Lx hLx
    exact ⟨La, hLa, by omega⟩

/-- C1, corrected: getLayoutedElements has no error path at all.  On a
graph containing a cycle (all edges well formed, node ids duplicate
free) it returns normally: every node on the cycle is simply never
assigned a layer, its x position comes out NaN, and the full node and
edge lists are still returned, so the caller sees neither a CycleError
nor any signal distinguishing this from a successful layout. -/
theorem claim_C1_theorem (nodes : List RNode) (edges : List REdge)
    (hnd : (nodes.map (fun n => n.id)).Nodup)
    (hval : ∀ e ∈ edges, e.source ∈ nodes.map (fun n => n.id) ∧
      e.target ∈ nodes.map (fun n => n.id))
    (a : String) (l : List String)
    (hcyc : List.Chain (fun s t => (⟨s, t⟩ : REdge) ∈ edges) a (l ++ [a])) :
    (∀ c ∈ a :: l, mget (assignLayers nodes edges) c = none) ∧
    (∀ r ∈ (getLayoutedElements nodes edges).1, r.id ∈ a :: l → r.px = none) ∧
    (getLayoutedElements nodes edges).1.map (fun n => n.id) =
      nodes.map (fun n => n.id) ∧
    (getLayoutedElements nodes edges).2 = edges := by
  have hAL : assignLayers nodes edges = (layoutBfs nodes edges).layers := rfl
  have ha : mget (layoutBfs nodes edges).layers a = none := by
    cases hla : mget (layoutBfs nodes edges).layers a with
    | none => rfl
    | some L =>
      obtain ⟨La, hLa, hlt⟩ := layer_chain_lt nodes edges hnd hval l a a hcyc L hla
      rw [hla] at hLa
      have hLL : L = La := by injection hLa
      omega
  have hcycnodes : ∀ c ∈ a :: l, mget (layoutBfs nodes edges).layers c = none := by
    intro c hc
    rcases List.mem_cons.mp hc with hca | hcl
    · rw [hca]; exact ha
    · cases hlc : mget (layoutBfs nodes edges).layers c with
      | none => rfl
      | some L =>
        obtain ⟨l1, l2, hsplit⟩ := List.append_of_mem hcl
        have hpref : List.Chain (fun s t => (⟨s, t⟩ : REdge) ∈ edges) a (l1 ++ [c]) := by
          apply chain_prefix (l1 ++ [c]) (l2 ++ [a])
          have heq : l ++ [a] = (l1 ++ [c]) ++ (l2 ++ [a]) := by rw [hsplit]; simp
          rw [← heq]
          exact hcyc
        obtain ⟨La, hLa, _⟩ := layer_chain_lt nodes edges hnd hval l1 a c hpref L hlc
        rw [ha] at hLa
        exact absurd hLa (by simp)
  refine ⟨?_, ?_, getLayoutedElements_map_id nodes edges,
    getLayoutedElements_snd nodes edges⟩
  · intro c hc
    rw [hAL]
    exact hcycnodes c hc
  · intro r hr hrid
    rw [getLayoutedElements_fst] at hr
    obtain ⟨m, hm, hmr⟩ := List.mem_map.mp hr
    subst hmr
    have hid := (centerNode_parts (layoutBfs nodes edges).layers
      (layoutBfs nodes edges).counts
      ((valuesMax (layoutBfs nodes edges).counts).map
        (fun m => m * nodeWidth + (m - 1) * horizontalSpacing)) m).1
    rw [hid] at hrid
    have hnone := hcycnodes m.id hrid
    exact centerNode_unassigned _ _ _ m hnone

/-- Witness for C1 at the concrete two-node cycle A to B to A. -/
theorem claim_C1_witness :
    (∀ c ∈ ("A" :: ["B"]), mget (assignLayers
        [⟨"A", [], some 0, 0⟩, ⟨"B", [], some 0, 0⟩]
        [⟨"A", "B"⟩, ⟨"B", "A"⟩]) c = none) ∧
    ((getLayoutedElements [⟨"A", [], some 0, 0⟩, ⟨"B", [], some 0, 0⟩]
        [⟨"A", "B"⟩, ⟨"B", "A"⟩]).1.map (fun n => n.id) =
      ([⟨"A", [], some 0, 0⟩, ⟨"B", [], some 0, 0⟩] : List RNode).map
        (fun n => n.id)) := by
  have h := claim_C1_theorem [⟨"A", [], some 0, 0⟩, ⟨"B", [], some 0, 0⟩]
    [⟨"A", "B"⟩, ⟨"B", "A"⟩] (by decide) (by decide) "A" ["B"]
    (List.Chain.cons (by decide) (List.Chain.cons (by decide) List.Chain.nil))
  exact ⟨h.1, h.2.2.1⟩

/-- Before the loop starts no node counts as processed: every id with a
layer is a root sitting in the queue. -/
theorem initState_noproc (nodes : List RNode) (edges : List REdge) (s : String) :
    isProcessed (initState nodes edges) s = false := by
  have hlayers : mget (initState nodes edges).layers s =
      if s ∈ (nodes.filter (fun n => mget (buildInDeg nodes edges) n.id == some 0)).map
        (fun n => n.id) then some 0 else none := by
    unfold initState
    dsimp only
    rw [mget_fold_const]
    rfl
  have hqueue : (initState nodes edges).queue =
      (nodes.filter (fun n => mget (buildInDeg nodes edges) n.id == some 0)).map
        (fun n => n.id) := rfl
  unfold isProcessed
  cases hs : (mget (initState nodes edges).layers s).isSome with
  | false => simp
  | true =>
    have hmem : s ∈ (initState nodes edges).queue := by
      rw [hlayers] at hs
      by_cases hm : s ∈ (nodes.filter (fun n =>
          mget (buildInDeg nodes edges) n.id == some 0)).map (fun n => n.id)
      · rw [hqueue]
        exact hm
      · rw [if_neg hm] at hs
        simp at hs
    simp [hmem]

/-- One loop iteration changes the non-node components in a way that only
reads the non-node components. -/
theorem bfsStep_core_eq (adj : List (String × List String)) (st st2 : BfsState)
    (u : String) (rest : List String) (h : coreOf st = coreOf st2) :
    coreOf (bfsStep adj st u rest) = coreOf (bfsStep adj st2 u rest) := by
  have hl : st.layers = st2.layers := congrArg BfsCore.layers h
  have hc : st.counts = st2.counts := congrArg BfsCore.counts h
  have hi : st.indeg = st2.indeg := congrArg BfsCore.indeg h
  unfold coreOf
  rw [bfsStep_layers, bfsStep_layers, bfsStep_counts, bfsStep_counts,
    bfsStep_indeg, bfsStep_indeg, bfsStep_queue, bfsStep_queue, hl, hc, hi]

/-- A node processed after one iteration was processed before it or is
the dequeued node itself. -/
theorem isProcessed_step_fwd (adj : List (String × List String)) (st : BfsState)
    (u : String) (rest : List String) (hq : st.queue = u :: rest) (s : String)
    (h : isProcessed (bfsStep adj st u rest) s = true) :
    isProcessed st s = true ∨ s = u := by
  unfold isProcessed at h
  rw [Bool.and_eq_true] at h
  obtain ⟨h1, h2⟩ := h
  have hnq : s ∉ (bfsStep adj st u rest).queue := by simpa using h2
  rw [bfsStep_queue] at hnq
  have hsh : s ∉ hits st.indeg ((mget adj u).getD []) :=
    fun hm => hnq (List.mem_append.mpr (Or.inr hm))
  rw [bfsStep_layers, mget_fold_keys, if_neg hsh] at h1
  by_cases hsu : s = u
  · exact Or.inr hsu
  · left
    unfold isProcessed
    rw [Bool.and_eq_true]
    refine ⟨h1, ?_⟩
    simp only [Bool.not_eq_true', decide_eq_false_iff_not]
    rw [hq]
    intro hmem
    rcases List.mem_cons.mp hmem with h | h
    · exact hsu h
    · exact hnq (List.mem_append.mpr (Or.inl h))

/-- Layers are only ever added during the run, never removed. -/
theorem bfsRun_layers_mono (adj : List (String × List String)) (t : String)
    (fuel : Nat) (st : BfsState) (h : (mget st.layers t).isSome = true) :
    (mget (bfsRun adj fuel st).layers t).isSome = true := by
  refine bfsRun_inv adj (fun s => (mget s.layers t).isSome = true) ?_ fuel st h
  intro s u rest hq hP
  rw [bfsStep_layers, mget_fold_keys]
  by_cases hm : t ∈ hits s.indeg ((mget adj u).getD [])
  · rw [if_pos hm]
    rfl
  · rw [if_neg hm]
    exact hP

/-- Centering a node with no layer only nulls its x coordinate. -/
theorem centerNode_none_eq (layers : List (String × Int)) (counts : List (Int × Int))
    (tw : Option Int) (n : RNode) (h : mget layers n.id = none) :
    centerNode layers counts tw n = { n with px := none } := by
  unfold centerNode
  rw [h]

/-- Two nodes agreeing on all four fields are equal. -/
theorem rnode_ext (e1 e2 : RNode) (h1 : e1.id = e2.id) (h2 : e1.data = e2.data)
    (h3 : e1.px = e2.px) (h4 : e1.py = e2.py) : e1 = e2 := by
  cases e1
  cases e2
  simp_all

/-- Replaying writes never changes a node's id or data. -/
theorem applyWElem_parts (ws : List (String × Int × Int)) :
    ∀ e : RNode, (applyWElem ws e).id = e.id ∧ (applyWElem ws e).data = e.data := by
  induction ws with
  | nil => intro e; exact ⟨rfl, rfl⟩
  | cons w ws ih =>
    intro e
    have hstep : applyWElem (w :: ws) e =
        applyWElem ws (if e.id = w.1 then
          { e with px := some w.2.1, py := w.2.2 } else e) := rfl
    rw [hstep]
    by_cases hh : e.id = w.1
    · rw [if_pos hh]
      have hr := ih { e with px := some w.2.1, py := w.2.2 }
      simpa using hr
    · rw [if_neg hh]
      exact ih e

/-- Replaying writes over two nodes with the same id, x and y yields the
same x and y. -/
theorem applyWElem_congr (ws : List (String × Int × Int)) :
    ∀ e1 e2 : RNode, e1.id = e2.id → e1.px = e2.px → e1.py = e2.py →
      (applyWElem ws e1).px = (applyWElem ws e2).px ∧
      (applyWElem ws e1).py = (applyWElem ws e2).py := by
  induction ws with
  | nil => intro e1 e2 _ hx hy; exact ⟨hx, hy⟩
  | cons w ws ih =>
    intro e1 e2 hid hx hy
    have h1 : applyWElem (w :: ws) e1 = applyWElem ws (if e1.id = w.1 then
      { e1 with px := some w.2.1, py := w.2.2 } else e1) := rfl
    have h2 : applyWElem (w :: ws) e2 = applyWElem ws (if e2.id = w.1 then
      { e2 with px := some w.2.1, py := w.2.2 } else e2) := rfl
    rw [h1, h2]
    by_cases hh : e1.id = w.1
    · rw [if_pos hh, if_pos (hid ▸ hh)]
      exact ih _ _ (by simpa using hid) rfl rfl
    · rw [if_neg hh, if_neg (fun hc => hh (hid.trans hc))]
      exact ih e1 e2 hid hx hy

/-- Once some write targets the element's id, the resulting x and y
depend only on the id, not on the incoming position. -/
theorem applyWElem_hit (ws : List (String × Int × Int)) :
    ∀ e1 e2 : RNode, e1.id = e2.id → (∃ w ∈ ws, w.1 = e1.id) →
      (applyWElem ws e1).px = (applyWElem ws e2).px ∧
      (applyWElem ws e1).py = (applyWElem ws e2).py := by
  induction ws with
  | nil =>
    intro e1 e2 _ h
    obtain ⟨w, hw, _⟩ := h
    simp at hw
  | cons w ws ih =>
    intro e1 e2 hid hex
    have h1 : applyWElem (w :: ws) e1 = applyWElem ws (if e1.id = w.1 then
      { e1 with px := some w.2.1, py := w.2.2 } else e1) := rfl
    have h2 : applyWElem (w :: ws) e2 = applyWElem ws (if e2.id = w.1 then
      { e2 with px := some w.2.1, py := w.2.2 } else e2) := rfl
    rw [h1, h2]
    by_cases hh : e1.id = w.1
    · rw [if_pos hh, if_pos (hid ▸ hh)]
      exact applyWElem_congr ws _ _ (by simpa using hid) rfl rfl
    · rw [if_neg hh, if_neg (fun hc => hh (hid.trans hc))]
      obtain ⟨w2, hw2, hw2e⟩ := hex
      rcases List.mem_cons.mp hw2 with hweq | hwm
      · subst hweq
        exact absurd hw2e.symm hh
      · exact ih e1 e2 hid ⟨w2, hwm, hw2e⟩

/-- Writes that all miss the element's id leave it unchanged. -/
theorem applyWElem_miss (ws : List (String × Int × Int)) :
    ∀ e : RNode, (∀ w ∈ ws, w.1 ≠ e.id) → applyWElem ws e = e := by
  induction ws with
  | nil => intro e _; rfl
  | cons w ws ih =>
    intro e h
    have h1 : applyWElem (w :: ws) e = applyWElem ws (if e.id = w.1 then
      { e with px := some w.2.1, py := w.2.2 } else e) := rfl
    rw [h1, if_neg (fun hc => h w (by simp) hc.symm)]
    exact ih e (fun w2 hw2 => h w2 (by simp [hw2]))

/-- On a duplicate-free node list replaying writes acts pointwise. -/
theorem applyWrites_nodup (ws : List (String × Int × Int)) :
    ∀ l : List RNode, (l.map (fun n => n.id)).Nodup →
      applyWrites ws l = l.map (applyWElem ws) := by
  induction ws with
  | nil =>
    intro l h
    exact (List.map_id' l).symm
  | cons w ws ih =>
    intro l h
    have hupd : ((l.map (fun n => if n.id = w.1 then
        { n with px := some w.2.1, py := w.2.2 } else n)).map (fun n => n.id)) =
        l.map (fun n => n.id) := by
      rw [List.map_map]
      apply List.map_congr_left
      intro a ha
      by_cases hh : a.id = w.1
      · simp [Function.comp, hh]
      · simp [Function.comp, hh]
    show applyWrites ws (setFirstPos l w.1 w.2.1 w.2.2) = l.map (applyWElem (w :: ws))
    rw [setFirstPos_nodup l w.1 w.2.1 w.2.2 h]
    rw [ih _ (by rw [hupd]; exact h)]
    rw [List.map_map]
    apply List.map_congr_left
    intro a ha
    rfl

/-- Mapping ids commutes with filtering on a predicate of the id. -/
theorem map_id_filter (p : String → Bool) : ∀ l : List RNode,
    ((l.filter (fun n => p n.id)).map (fun n => n.id)) =
      (l.map (fun n => n.id)).filter p := by
  intro l
  induction l with
  | nil => rfl
  | cons n rest ih =>
    rw [List.filter_cons, List.map_cons, List.filter_cons]
    by_cases hp : p n.id = true
    · rw [if_pos hp, if_pos hp, List.map_cons, ih]
    · rw [if_neg hp, if_neg hp, ih]

/-- The adjacency map depends on the nodes only through their id list. -/
theorem buildAdj_ids (nodes nodes2 : List RNode) (edges : List REdge)
    (h : nodes2.map (fun n => n.id) = nodes.map (fun n => n.id)) :
    buildAdj nodes2 edges = buildAdj nodes edges := by
  unfold buildAdj
  congr 1
  rw [← List.foldl_map (fun n : RNode => n.id)
      (fun m k => mset m k ([] : List String)),
    ← List.foldl_map (fun n : RNode => n.id)
      (fun m k => mset m k ([] : List String)), h]

/-- The in-degree map depends on the nodes only through their id list. -/
theorem buildInDeg_ids (nodes nodes2 : List RNode) (edges : List REdge)
    (h : nodes2.map (fun n => n.id) = nodes.map (fun n => n.id)) :
    buildInDeg nodes2 edges = buildInDeg nodes edges := by
  unfold buildInDeg
  congr 1
  rw [← List.foldl_map (fun n : RNode => n.id)
      (fun m k => mset m k (0 : Int)),
    ← List.foldl_map (fun n : RNode => n.id)
      (fun m k => mset m k (0 : Int)), h]

/-- The non-node components of the initial state depend on the nodes only
through their id list. -/
theorem initState_core (nodes nodes2 : List RNode) (edges : List REdge)
    (h : nodes2.map (fun n => n.id) = nodes.map (fun n => n.id)) :
    coreOf (initState nodes2 edges) = coreOf (initState nodes edges) := by
  have hdeg := buildInDeg_ids nodes nodes2 edges h
  unfold coreOf initState
  dsimp only
  rw [hdeg]
  have hq : ((nodes2.filter (fun n =>
        mget (buildInDeg nodes edges) n.id == some 0)).map (fun n => n.id)) =
      ((nodes.filter (fun n =>
        mget (buildInDeg nodes edges) n.id == some 0)).map (fun n => n.id)) := by
    have h1 := map_id_filter (fun k => mget (buildInDeg nodes edges) k == some 0) nodes2
    have h2 := map_id_filter (fun k => mget (buildInDeg nodes edges) k == some 0) nodes
    rw [h1, h2, h]
  have hlay : (nodes2.filter (fun n =>
        mget (buildInDeg nodes edges) n.id == some 0)).foldl
        (fun m n => mset m n.id (0 : Int)) [] =
      (nodes.filter (fun n =>
        mget (buildInDeg nodes edges) n.id == some 0)).foldl
        (fun m n => mset m n.id (0 : Int)) [] := by
    rw [← List.foldl_map (fun n : RNode => n.id)
        (fun m k => mset m k (0 : Int)),
      ← List.foldl_map (fun n : RNode => n.id)
        (fun m k => mset m k (0 : Int)), hq]
  rw [hlay, hq]

/-- The run acts on the nodes only through a write list fully determined
by the non-node components, which themselves evolve independently of the
nodes; every write targets an id that ends up with a layer, and every
node processed by the run (beyond those already processed) is written. -/
theorem bfsRun_writes (adj : List (String × List String))
    (indeg0 : List (String × Int)) (ids : List String) (edges0 : List REdge)
    (amb : LayAmbient adj indeg0 ids edges0) :
    ∀ (fuel : Nat) (st st2 : BfsState),
      LayInv adj indeg0 ids edges0 st → coreOf st = coreOf st2 →
      ∃ ws : List (String × Int × Int),
        coreOf (bfsRun adj fuel st) = coreOf (bfsRun adj fuel st2) ∧
        (bfsRun adj fuel st).nodes = applyWrites ws st.nodes ∧
        (bfsRun adj fuel st2).nodes = applyWrites ws st2.nodes ∧
        (∀ w ∈ ws, (mget (bfsRun adj fuel st).layers w.1).isSome = true) ∧
        (∀ s, isProcessed (bfsRun adj fuel st) s = true →
          isProcessed st s = true ∨ ∃ w ∈ ws, w.1 = s) := by
  intro fuel
  induction fuel with
  | zero =>
    intro st st2 inv hcore
    exact ⟨[], hcore, rfl, rfl, by simp, fun s hs => Or.inl hs⟩
  | succ n ih =>
    intro st st2 inv hcore
    have hq2eq : st2.queue = st.queue := (congrArg BfsCore.queue hcore).symm
    cases hq : st.queue with
    | nil =>
      have hq2 : st2.queue = [] := by rw [hq2eq, hq]
      simp only [bfsRun, hq, hq2]
      exact ⟨[], hcore, rfl, rfl, by simp, fun s hs => Or.inl hs⟩
    | cons u rest =>
      have hq2 : st2.queue = u :: rest := by rw [hq2eq, hq]
      simp only [bfsRun, hq, hq2]
      have hstep := bfsStep_core_eq adj st st2 u rest hcore
      have hinv2 := layInv_step adj indeg0 ids edges0 amb st u rest hq inv
      obtain ⟨ws, hc, hn1, hn2, hasg, hpro⟩ :=
        ih (bfsStep adj st u rest) (bfsStep adj st2 u rest) hinv2 hstep
      refine ⟨(u, (mget st.counts ((mget st.layers u).getD 0)).getD 0 *
          (nodeWidth + horizontalSpacing),
          (mget st.layers u).getD 0 * (nodeHeight + verticalSpacing)) :: ws,
        hc, ?_, ?_, ?_, ?_⟩
      · rw [hn1, bfsStep_nodes]
        rfl
      · rw [hn2, bfsStep_nodes]
        have hl : st2.layers = st.layers := (congrArg BfsCore.layers hcore).symm
        have hcn : st2.counts = st.counts := (congrArg BfsCore.counts hcore).symm
        rw [hl, hcn]
        rfl
      · intro w hw
        rcases List.mem_cons.mp hw with hwu | hwm
        · subst hwu
          have hu : (mget st.layers u).isSome = true :=
            inv.queueAsg u (by rw [hq]; simp)
          have hu2 : (mget (bfsStep adj st u rest).layers u).isSome = true := by
            rw [bfsStep_layers, mget_fold_keys]
            by_cases hm : u ∈ hits st.indeg ((mget adj u).getD [])
            · rw [if_pos hm]
              rfl
            · rw [if_neg hm]
              exact hu
          exact bfsRun_layers_mono adj u n (bfsStep adj st u rest) hu2
        · exact hasg w hwm
      · intro s hs
        rcases hpro s hs with hp | ⟨w, hw, hws⟩
        · rcases isProcessed_step_fwd adj st u rest hq s hp with hp2 | hsu
          · exact Or.inl hp2
          · exact Or.inr ⟨(u, (mget st.counts ((mget st.layers u).getD 0)).getD 0 *
              (nodeWidth + horizontalSpacing),
              (mget st.layers u).getD 0 * (nodeHeight + verticalSpacing)),
              by simp, hsu.symm⟩
        · exact Or.inr ⟨w, List.mem_cons_of_mem _ hw, hws⟩

/-- Re-applying the same writes and centering to an already centered node
changes nothing: the writes pin down x and y for every id with a layer,
and centering nulls x for every id without one. -/
theorem center_write_fix (layers : List (String × Int)) (counts : List (Int × Int))
    (tw : Option Int) (ws : List (String × Int × Int))
    (hasg : ∀ w ∈ ws, (mget layers w.1).isSome = true)
    (hwrit : ∀ s, (mget layers s).isSome = true → ∃ w ∈ ws, w.1 = s)
    (n : RNode) :
    centerNode layers counts tw (applyWElem ws (centerNode layers counts tw
      (applyWElem ws n))) = centerNode layers counts tw (applyWElem ws n) := by
  have hid1 : (applyWElem ws n).id = n.id := (applyWElem_parts ws n).1
  have ho1id : (centerNode layers counts tw (applyWElem ws n)).id = n.id := by
    rw [(centerNode_parts layers counts tw (applyWElem ws n)).1, hid1]
  cases hL : mget layers n.id with
  | none =>
    have hmiss : ∀ w ∈ ws, w.1 ≠
        (centerNode layers counts tw (applyWElem ws n)).id := by
      intro w hw hcon
      have hw2 := hasg w hw
      rw [hcon, ho1id, hL] at hw2
      simp at hw2
    rw [applyWElem_miss ws _ hmiss]
    have ho1 : centerNode layers counts tw (applyWElem ws n) =
        { applyWElem ws n with px := none } :=
      centerNode_none_eq layers counts tw (applyWElem ws n) (by rw [hid1]; exact hL)
    have h2 : centerNode layers counts tw
        (centerNode layers counts tw (applyWElem ws n)) =
        { centerNode layers counts tw (applyWElem ws n) with px := none } :=
      centerNode_none_eq layers counts tw _ (by rw [ho1id]; exact hL)
    rw [h2]
    apply rnode_ext
    · rfl
    · rfl
    · rw [ho1]
    · rfl
  | some L0 =>
    obtain ⟨w, hw, hws⟩ := hwrit n.id (by rw [hL]; rfl)
    have hhit := applyWElem_hit ws (centerNode layers counts tw (applyWElem ws n)) n
      ho1id ⟨w, hw, by rw [ho1id]; exact hws⟩
    have heq : applyWElem ws (centerNode layers counts tw (applyWElem ws n)) =
        applyWElem ws n := by
      apply rnode_ext
      · rw [(applyWElem_parts ws (centerNode layers counts tw (applyWElem ws n))).1,
          ho1id, hid1]
      · rw [(applyWElem_parts ws (centerNode layers counts tw (applyWElem ws n))).2,
          (centerNode_parts layers counts tw (applyWElem ws n)).2.1,
          (applyWElem_parts ws n).2]
      · exact hhit.1
      · exact hhit.2
    rw [heq]

/-- C8: the layout is a pure function of nodes, edges and the four layout
constants, and is idempotent in the stateful sense matching the source's
in-place position mutation: feeding its own output back in reproduces
exactly the same node objects and coordinates, for any input with
duplicate-free node ids whose edges all have present endpoints. -/
theorem claim_C8_theorem (nodes : List RNode) (edges : List REdge)
    (hnd : (nodes.map (fun n => n.id)).Nodup)
    (hval : ∀ e ∈ edges, e.source ∈ nodes.map (fun n => n.id) ∧
      e.target ∈ nodes.map (fun n => n.id)) :
    getLayoutedElements (getLayoutedElements nodes edges).1
      (getLayoutedElements nodes edges).2 = getLayoutedElements nodes edges := by
  have amb := layAmbient_holds nodes edges hnd hval
  have inv0 := layInv_init nodes edges amb
  have hids := getLayoutedElements_map_id nodes edges
  have hnd2 : ((getLayoutedElements nodes edges).1.map (fun n => n.id)).Nodup := by
    rw [hids]
    exact hnd
  have hlen : (getLayoutedElements nodes edges).1.length = nodes.length := by
    have h1 := congrArg List.length hids
    rwa [List.length_map, List.length_map] at h1
  have hadj := buildAdj_ids nodes (getLayoutedElements nodes edges).1 edges hids
  have hcore0 := initState_core nodes (getLayoutedElements nodes edges).1 edges hids
  obtain ⟨ws, hc, hn1, hn2, hasg, hpro⟩ := bfsRun_writes (buildAdj nodes edges)
    (buildInDeg nodes edges) (nodes.map (fun n => n.id)) edges amb
    (nodes.length + edges.length) (initState nodes edges)
    (initState (getLayoutedElements nodes edges).1 edges) inv0 hcore0.symm
  have hrun2 : bfsRun (buildAdj nodes edges) (nodes.length + edges.length)
      (initState (getLayoutedElements nodes edges).1 edges) =
      layoutBfs (getLayoutedElements nodes edges).1 edges := by
    unfold layoutBfs
    rw [hadj, hlen]
  have hrun1 : bfsRun (buildAdj nodes edges) (nodes.length + edges.length)
      (initState nodes edges) = layoutBfs nodes edges := rfl
  rw [hrun1] at hc hn1 hasg hpro
  rw [hrun2] at hc hn2
  have hin1 : (initState nodes edges).nodes = nodes := rfl
  have hin2 : (initState (getLayoutedElements nodes edges).1 edges).nodes =
      (getLayoutedElements nodes edges).1 := rfl
  rw [hin1] at hn1
  rw [hin2] at hn2
  have hlay2 : (layoutBfs (getLayoutedElements nodes edges).1 edges).layers =
      (layoutBfs nodes edges).layers := (congrArg BfsCore.layers hc).symm
  have hcnt2 : (layoutBfs (getLayoutedElements nodes edges).1 edges).counts =
      (layoutBfs nodes edges).counts := (congrArg BfsCore.counts hc).symm
  have hwrit : ∀ s, (mget (layoutBfs nodes edges).layers s).isSome = true →
      ∃ w ∈ ws, w.1 = s := by
    intro s hsome
    have hp : isProcessed (layoutBfs nodes edges) s = true := by
      unfold isProcessed
      rw [layoutBfs_queue_empty]
      simp [hsome]
    rcases hpro s hp with hip | hex
    · rw [initState_noproc nodes edges s] at hip
      exact absurd hip (by simp)
    · exact hex
  rw [Prod.ext_iff]
  constructor
  · rw [getLayoutedElements_snd nodes edges]
    rw [getLayoutedElements_fst (getLayoutedElements nodes edges).1 edges]
    rw [hlay2, hcnt2, hn2]
    rw [applyWrites_nodup ws (getLayoutedElements nodes edges).1 hnd2]
    have hout1 : (getLayoutedElements nodes edges).1 =
        nodes.map (fun n0 => centerNode (layoutBfs nodes edges).layers
          (layoutBfs nodes edges).counts
          ((valuesMax (layoutBfs nodes edges).counts).map
            (fun m => m * nodeWidth + (m - 1) * horizontalSpacing))
          (applyWElem ws n0)) := by
      rw [getLayoutedElements_fst nodes edges, hn1,
        applyWrites_nodup ws nodes hnd, List.map_map]
      rfl
    rw [hout1]
    rw [List.map_map, List.map_map]
    apply List.map_congr_left
    intro n0 hn0
    simp only [Function.comp]
    exact center_write_fix (layoutBfs nodes edges).layers
      (layoutBfs nodes edges).counts
      ((valuesMax (layoutBfs nodes edges).counts).map
        (fun m => m * nodeWidth + (m - 1) * horizontalSpacing)) ws hasg hwrit n0
  · rw [getLayoutedElements_snd, getLayoutedElements_snd]

/-- Witness for C8 at a concrete two-node graph with one edge. -/
theorem claim_C8_witness :
    getLayoutedElements
      (getLayoutedElements [⟨"A", [], some 0, 0⟩, ⟨"B", [], some 0, 0⟩]
        [⟨"A", "B"⟩]).1
      (getLayoutedElements [⟨"A", [], some 0, 0⟩, ⟨"B", [], some 0, 0⟩]
        [⟨"A", "B"⟩]).2 =
    getLayoutedElements [⟨"A", [], some 0, 0⟩, ⟨"B", [], some 0, 0⟩]
      [⟨"A", "B"⟩] :=
  claim_C8_theorem [⟨"A", [], some 0, 0⟩, ⟨"B", [], some 0, 0⟩] [⟨"A", "B"⟩]
    (by decide) (by decide)
